import Mathlib

/-!
Verification of the lyon `path` core data structure (src/path/src/path.rs).

The Rust code is shallowly embedded: `Point` coordinates (f32 in the source)
are modelled as exact rationals, the two growable arrays of the builder are
Lean lists (push becomes append of a singleton), and the two slice iterators
are modelled as structurally recursive functions over the verb list.  The
`unwrap` on the points iterator in `Iter::next` aborts the process in Rust;
the model truncates the event stream at that point, and the claims that
depend on iteration carry the arity/point-count invariant that every path
built through the public API satisfies, so the truncation branch is never
taken there.  Slice indexing `points[i]` in `reverse_path` aborts on an
out-of-range index in Rust; the model reads with a default value, and the
bounds themselves are handled by the dedicated access-safety development
(`reverseAccessOk`).  The f32 literal 0.0001 used by the close snap is
modelled as the exact rational 1/10000.
-/

namespace Lyon

attribute [local semireducible] Rat.add Rat.sub Rat.mul Rat.inv Rat.ofScientific

/-- A 2d point; coordinates model the f32 values of the source exactly. -/
structure Point where
  x : ℚ
  y : ℚ
deriving DecidableEq, Repr

/-- The origin, `Point::new(0.0, 0.0)`. -/
def origin : Point := ⟨0, 0⟩

/-- The close-snap tolerance 0.0001 of `Builder::close`. -/
def tol : ℚ := 1 / 10000

/-- The quantity `d.x + d.y` for `d = (*p - first_position).abs()` in
`Builder::close`: the L1 distance of the two points. -/
def snapDist (p q : Point) : ℚ := |p.x - q.x| + |p.y - q.y|

/-- The state of a stored last point after a close: it was either snapped to
the sub-path start or it is at least the tolerance away from it.  This is the
condition under which a second snap of the same point against the same start
leaves the array unchanged. -/
def snapOK (p q : Point) : Prop := p = q ∨ ¬ snapDist p q < tol

/-- The verb enumeration of the source, in source declaration order (the
order fixes the discriminants used by `end_if_needed`). -/
inductive Verb where
  | LineTo
  | QuadraticTo
  | CubicTo
  | Begin
  | Close
  | End
deriving DecidableEq, Repr

/-- The discriminant of a verb (`v as u8` in the source). -/
def Verb.rank : Verb → Nat
  | .LineTo => 0
  | .QuadraticTo => 1
  | .CubicTo => 2
  | .Begin => 3
  | .Close => 4
  | .End => 5

/-- Number of points stored for a verb (`n_stored_points` in the source). -/
def n_stored_points : Verb → Nat
  | .Begin => 1
  | .LineTo => 1
  | .QuadraticTo => 2
  | .CubicTo => 3
  | .Close => 0
  | .End => 0

/-- Total number of points consumed by a verb stream. -/
def numPoints : List Verb → Nat
  | [] => 0
  | v :: vs => n_stored_points v + numPoints vs

/-- The immutable path: the two parallel arrays. -/
structure Path where
  points : List Point
  verbs : List Verb
deriving DecidableEq, Repr

/-- `Path::merge`: concatenation of the two pairs of arrays. -/
def Path.merge (a b : Path) : Path :=
  { points := a.points ++ b.points, verbs := a.verbs ++ b.verbs }

/-- The builder, with all the transient fields of the source. -/
structure Builder where
  points : List Point
  verbs : List Verb
  current_position : Point
  first_position : Point
  first_vertex : Nat
  first_verb : Nat
  need_moveto : Bool
  last_cmd : Verb
deriving DecidableEq, Repr

/-- `Builder::new` / `Builder::with_capacity`. -/
def Builder.new : Builder :=
  { points := []
    verbs := []
    current_position := origin
    first_position := origin
    first_vertex := 0
    first_verb := 0
    need_moveto := true
    last_cmd := .End }

/-- `Builder::end_if_needed`: push `End` when the last command's discriminant
is at most `Begin`'s. -/
def Builder.end_if_needed (b : Builder) : Builder :=
  if b.last_cmd.rank ≤ Verb.Begin.rank then { b with verbs := b.verbs ++ [.End] } else b

/-- `Builder::move_to`. -/
def Builder.move_to (b : Builder) (t : Point) : Builder :=
  let b1 := b.end_if_needed
  { b1 with
    need_moveto := false
    first_position := t
    first_vertex := b1.points.length
    first_verb := b1.verbs.length
    current_position := t
    points := b1.points ++ [t]
    verbs := b1.verbs ++ [.Begin]
    last_cmd := .Begin }

/-- `Builder::move_to_if_needed`. -/
def Builder.move_to_if_needed (b : Builder) : Builder :=
  if b.need_moveto then b.move_to b.first_position else b

/-- `Builder::line_to`. -/
def Builder.line_to (b : Builder) (t : Point) : Builder :=
  let b1 := b.move_to_if_needed
  { b1 with
    points := b1.points ++ [t]
    verbs := b1.verbs ++ [.LineTo]
    current_position := t
    last_cmd := .LineTo }

/-- The snap step of `Builder::close`: if the last stored point is within the
tolerance (L1) of `first`, replace it by `first`. -/
def snapLast (pts : List Point) (first : Point) : List Point :=
  match pts.getLast? with
  | none => pts
  | some p => if snapDist p first < tol then pts.dropLast ++ [first] else pts

/-- `Builder::close`. -/
def Builder.close (b : Builder) : Builder :=
  { b with
    points := snapLast b.points b.first_position
    verbs := b.verbs ++ [.Close]
    current_position := b.first_position
    need_moveto := true
    last_cmd := .Close }

/-- `Builder::quadratic_bezier_to`. -/
def Builder.quadratic_bezier_to (b : Builder) (c t : Point) : Builder :=
  let b1 := b.move_to_if_needed
  { b1 with
    points := b1.points ++ [c, t]
    verbs := b1.verbs ++ [.QuadraticTo]
    current_position := t
    last_cmd := .QuadraticTo }

/-- `Builder::cubic_bezier_to`. -/
def Builder.cubic_bezier_to (b : Builder) (c1 c2 t : Point) : Builder :=
  let b1 := b.move_to_if_needed
  { b1 with
    points := b1.points ++ [c1, c2, t]
    verbs := b1.verbs ++ [.CubicTo]
    current_position := t
    last_cmd := .CubicTo }

/-- `Builder::build`. -/
def Builder.build (b : Builder) : Path :=
  let b1 := b.end_if_needed
  { points := b1.points, verbs := b1.verbs }

/-- `Build::build_and_reset for Builder`: as in the source it does not call
`end_if_needed`, and resets only `current_position` and `first_position`
besides taking the two arrays. -/
def Builder.build_and_reset (b : Builder) : Path × Builder :=
  ({ points := b.points, verbs := b.verbs },
   { b with
     current_position := origin
     first_position := origin
     points := []
     verbs := [] })

/-- The event shape shared by the value iterator (`α = Point`) and the
identifier iterator (`α = Nat`, the indices wrapped in EndpointId and
CtrlPointId in the source). -/
inductive Ev (α : Type) where
  | begin (a : α)
  | line (f t : α)
  | quadratic (f c t : α)
  | cubic (f c1 c2 t : α)
  | end_ (last first : α) (close : Bool)
deriving DecidableEq, Repr

/-- The kind of an event, keeping the close flag of an End event. -/
inductive EvKind where
  | begin
  | line
  | quadratic
  | cubic
  | end_ (close : Bool)
deriving DecidableEq, Repr

/-- Forgetting the payload of an event. -/
def Ev.kind : Ev α → EvKind
  | .begin _ => .begin
  | .line _ _ => .line
  | .quadratic _ _ _ => .quadratic
  | .cubic _ _ _ _ => .cubic
  | .end_ _ _ c => .end_ c

/-- `Iter::next`, iterated to the full event list.  The state is the pair of
remaining slices plus the `current` and `first` points.  An under-run of the
points slice (an `unwrap` panic in the source) truncates the stream. -/
def evAux : List Verb → List Point → Point → Point → List (Ev Point)
  | [], _, _, _ => []
  | .Begin :: vs, pts, _, _ =>
    match pts with
    | [] => []
    | p :: rest => .begin p :: evAux vs rest p p
  | .LineTo :: vs, pts, cur, fst =>
    match pts with
    | [] => []
    | p :: rest => .line cur p :: evAux vs rest p fst
  | .QuadraticTo :: vs, pts, cur, fst =>
    match pts with
    | c :: p :: rest => .quadratic cur c p :: evAux vs rest p fst
    | _ => []
  | .CubicTo :: vs, pts, cur, fst =>
    match pts with
    | c1 :: c2 :: p :: rest => .cubic cur c1 c2 p :: evAux vs rest p fst
    | _ => []
  | .Close :: vs, pts, cur, fst => .end_ cur fst true :: evAux vs pts fst fst
  | .End :: vs, pts, cur, fst => .end_ cur fst false :: evAux vs pts fst fst

/-- `Path::iter` driven to exhaustion. -/
def Path.events (P : Path) : List (Ev Point) := evAux P.verbs P.points origin origin

/-- `IdIter::next` iterated to the full event list, exactly as in the source
(including the arithmetic on `current` and `first`). -/
def idAux : List Verb → Nat → Nat → List (Ev Nat)
  | [], _, _ => []
  | .Begin :: vs, cur, _ => .begin cur :: idAux vs (cur + 1) cur
  | .LineTo :: vs, cur, fst => .line cur (cur + 1) :: idAux vs (cur + 1) fst
  | .QuadraticTo :: vs, cur, fst => .quadratic cur (cur + 1) (cur + 2) :: idAux vs (cur + 2) fst
  | .CubicTo :: vs, cur, fst =>
    .cubic cur (cur + 1) (cur + 2) (cur + 3) :: idAux vs (cur + 3) fst
  | .Close :: vs, cur, fst => .end_ cur fst true :: idAux vs fst fst
  | .End :: vs, cur, fst => .end_ cur fst false :: idAux vs fst fst

/-- `Path::id_iter` driven to exhaustion. -/
def Path.idEvents (P : Path) : List (Ev Nat) := idAux P.verbs 0 0

/-- One public builder call (the primitive construction operations). -/
inductive BuilderOp where
  | move_to (t : Point)
  | line_to (t : Point)
  | quadratic_bezier_to (c t : Point)
  | cubic_bezier_to (c1 c2 t : Point)
  | close
deriving DecidableEq, Repr

/-- Apply one builder call. -/
def applyOp (b : Builder) : BuilderOp → Builder
  | .move_to t => b.move_to t
  | .line_to t => b.line_to t
  | .quadratic_bezier_to c t => b.quadratic_bezier_to c t
  | .cubic_bezier_to c1 c2 t => b.cubic_bezier_to c1 c2 t
  | .close => b.close

/-- Run a sequence of builder calls from a given builder. -/
def applyOpsFrom (b : Builder) (ops : List BuilderOp) : Builder :=
  ops.foldl applyOp b

/-- Run a sequence of builder calls on a fresh builder. -/
def applyOps (ops : List BuilderOp) : Builder := applyOpsFrom Builder.new ops

/-- The path built by a sequence of builder calls. -/
def buildOps (ops : List BuilderOp) : Path := (applyOps ops).build

/-- Feeding one iterated event back into a builder (the round-trip recipe:
Begin becomes move_to, Line becomes line_to, Quadratic and Cubic become the
curve calls, a closing End becomes close, a non-closing End is dropped). -/
def replayStep (b : Builder) : Ev Point → Builder
  | .begin p => b.move_to p
  | .line _ t => b.line_to t
  | .quadratic _ c t => b.quadratic_bezier_to c t
  | .cubic _ c1 c2 t => b.cubic_bezier_to c1 c2 t
  | .end_ _ _ true => b.close
  | .end_ _ _ false => b

/-- Replay a full event list into a fresh builder and build. -/
def replayBuild (evs : List (Ev Point)) : Path :=
  (evs.foldl replayStep Builder.new).build

/-- The body of the loop of `reverse_path`: the builder call (and the new
pending-close flag) for one verb, reading points at the offsets of the
source.  An out-of-range read aborts in Rust; here it reads `origin`, and
in-boundedness is treated by `reverseAccessOk` below. -/
def revVisit (pts : List Point) (p : Nat) (need_close : Bool) (b : Builder) :
    Verb → Bool × Builder
  | .Close => (true, b.move_to (pts.getD (p - 1) origin))
  | .End => (false, b.move_to (pts.getD (p - 1) origin))
  | .Begin => if need_close then (false, b.close) else (need_close, b)
  | .LineTo => (need_close, b.line_to (pts.getD (p - 2) origin))
  | .QuadraticTo =>
    (need_close, b.quadratic_bezier_to (pts.getD (p - 2) origin) (pts.getD (p - 3) origin))
  | .CubicTo =>
    (need_close,
     b.cubic_bezier_to (pts.getD (p - 2) origin) (pts.getD (p - 3) origin)
       (pts.getD (p - 4) origin))

/-- The loop of `reverse_path` over the already reversed verb list. -/
def revFold (pts : List Point) : List Verb → Nat → Bool → Builder → Nat × Bool × Builder
  | [], p, nc, b => (p, nc, b)
  | v :: vs, p, nc, b =>
    let r := revVisit pts p nc b v
    revFold pts vs (p - n_stored_points v) r.1 r.2

/-- `reverse_path`: walk the verbs from the end, with the point cursor
starting at the length of the points array. -/
def reverse_path (P : Path) (b : Builder) : Builder :=
  (revFold P.points P.verbs.reverse P.points.length false b).2.2

/-- Reverse a path into a fresh builder and build the result. -/
def revBuild (P : Path) : Path := (reverse_path P Builder.new).build

/-- The bounds check for the reads performed by one `reverse_path` step at
cursor `p` on a points array of length `len` (reads `p-1` on Close and End,
`p-2` on LineTo, `p-2` and `p-3` on QuadraticTo, `p-2`, `p-3` and `p-4` on
CubicTo; `Begin` reads nothing). -/
def accessCheck (len : Nat) (p : Nat) : Verb → Bool
  | .Close => decide (1 ≤ p ∧ p - 1 < len)
  | .End => decide (1 ≤ p ∧ p - 1 < len)
  | .Begin => true
  | .LineTo => decide (2 ≤ p ∧ p - 2 < len)
  | .QuadraticTo => decide (3 ≤ p ∧ p - 2 < len ∧ p - 3 < len)
  | .CubicTo => decide (4 ≤ p ∧ p - 2 < len ∧ p - 3 < len ∧ p - 4 < len)

/-- Run the bounds check along the reversed verb walk of `reverse_path`. -/
def revAccessAux (len : Nat) : List Verb → Nat → Bool
  | [], _ => true
  | v :: vs, p => accessCheck len p v && revAccessAux len vs (p - n_stored_points v)

/-- All point accesses of `reverse_path` on the given arrays are in bounds. -/
def reverseAccessOk (pts : List Point) (vs : List Verb) : Bool :=
  revAccessAux pts.length vs.reverse pts.length

/-- The same conjunction of checks, accumulated walking the verbs forward
with `q` points already consumed (the cursor of the backward walk at a verb
equals the points consumed by the stream up to and including that verb). -/
def fwdAccess (len : Nat) : Nat → List Verb → Bool
  | _, [] => true
  | q, v :: vs => accessCheck len (q + n_stored_points v) v && fwdAccess len (q + n_stored_points v) vs

/-- Checks that the first tag of every maximal terminator-delimited run of
the tag stream is `Begin` (the flag is true at the start of a run).  This is
the literal first-tag-is-Begin property; it says nothing else about the
interior of a run. -/
def runsBeginFirst : Bool → List Verb → Bool
  | _, [] => true
  | true, .Begin :: vs => runsBeginFirst false vs
  | true, _ => false
  | false, .Close :: vs => runsBeginFirst true vs
  | false, .End :: vs => runsBeginFirst true vs
  | false, _ :: vs => runsBeginFirst false vs

/-- The run-structure a built path actually has: every maximal run either
starts with `Begin` (and contains no further `Begin`) or is a single bare
`Close`; segment verbs occur only inside a `Begin`-started run. -/
def runsOK : Bool → List Verb → Bool
  | _, [] => true
  | true, .Begin :: vs => runsOK false vs
  | true, .Close :: vs => runsOK true vs
  | true, _ => false
  | false, .Close :: vs => runsOK true vs
  | false, .End :: vs => runsOK true vs
  | false, .Begin :: _ => false
  | false, _ :: vs => runsOK false vs

/-- Every `Begin` that has a predecessor in the stream is directly preceded
by `Close` or `End`. -/
def beginsPreceded : List Verb → Bool
  | [] => true
  | [_] => true
  | a :: b :: rest =>
    (decide (b ≠ .Begin) || decide (a = .Close) || decide (a = .End)) &&
      beginsPreceded (b :: rest)

/-- Inductive view of `runsBeginFirst`: the state is true at the start of a
maximal run, and every run opens with `Begin`.  Mid-run, any non-terminator
verb (all of which store at least one point) is allowed. -/
inductive RunsFrom : Bool → List Verb → Prop where
  | nil (b : Bool) : RunsFrom b []
  | start (vs : List Verb) : RunsFrom false vs → RunsFrom true (.Begin :: vs)
  | closeRun (vs : List Verb) : RunsFrom true vs → RunsFrom false (.Close :: vs)
  | endRun (vs : List Verb) : RunsFrom true vs → RunsFrom false (.End :: vs)
  | mid (v : Verb) (vs : List Verb) :
      v = .LineTo ∨ v = .QuadraticTo ∨ v = .CubicTo ∨ v = .Begin →
      RunsFrom false vs → RunsFrom false (v :: vs)

/-- A segment of a sub-path (everything a non-Begin point-storing verb
records). -/
inductive Seg where
  | line (t : Point)
  | quad (c t : Point)
  | cubic (c1 c2 t : Point)
deriving DecidableEq, Repr

/-- The endpoint of a segment (the last point it stores). -/
def Seg.to : Seg → Point
  | .line t => t
  | .quad _ t => t
  | .cubic _ _ t => t

/-- The points a segment pushes, in push order. -/
def Seg.pts : Seg → List Point
  | .line t => [t]
  | .quad c t => [c, t]
  | .cubic c1 c2 t => [c1, c2, t]

/-- The verb a segment pushes. -/
def Seg.verb : Seg → Verb
  | .line _ => .LineTo
  | .quad _ _ => .QuadraticTo
  | .cubic _ _ _ => .CubicTo

/-- Replace the endpoint of a segment. -/
def Seg.withTo : Seg → Point → Seg
  | .line _, t => .line t
  | .quad c _, t => .quad c t
  | .cubic c1 c2 _, t => .cubic c1 c2 t

/-- The reversed form of a segment whose new endpoint is `p` (the endpoint
of the previous forward segment): controls are listed in reversed order, as
emitted by `reverse_path`. -/
def Seg.revWith : Seg → Point → Seg
  | .line _, p => .line p
  | .quad c _, p => .quad c p
  | .cubic c1 c2 _, p => .cubic c2 c1 p

/-- Points of a segment list. -/
def segsPts : List Seg → List Point
  | [] => []
  | sg :: g => sg.pts ++ segsPts g

/-- Verbs of a segment list. -/
def segsVerbs : List Seg → List Verb
  | [] => []
  | sg :: g => sg.verb :: segsVerbs g

/-- The last stored point of a sub-path starting at `s` with segments `g`. -/
def blockLast (s : Point) (g : List Seg) : Point :=
  match g.getLast? with
  | none => s
  | some sg => sg.to

/-- Replace the endpoint of the last segment. -/
def replaceLastTo : List Seg → Point → List Seg
  | [], _ => []
  | [sg], t => [sg.withTo t]
  | sg :: g, t => sg :: replaceLastTo g t

/-- The effect of the close snap on the open segments of a sub-path starting
at `s`. -/
def snapSegs (s : Point) (g : List Seg) : List Seg :=
  if snapDist (blockLast s g) s < tol then replaceLastTo g s else g

/-- A maximal terminator-delimited piece of a built tag stream: either a
`Begin`-started sub-path (open or closed) or a bare `Close` pushed while no
sub-path was open. -/
inductive Chunk where
  | block (s : Point) (g : List Seg) (closed : Bool)
  | loneClose
deriving DecidableEq, Repr

/-- Points stored by a chunk. -/
def chunkPts : Chunk → List Point
  | .block s g _ => s :: segsPts g
  | .loneClose => []

/-- Verbs stored by a chunk (a finished open block carries its `End`). -/
def chunkVerbs : Chunk → List Verb
  | .block _ g true => .Begin :: (segsVerbs g ++ [.Close])
  | .block _ g false => .Begin :: (segsVerbs g ++ [.End])
  | .loneClose => [.Close]

/-- Points of a chunk list. -/
def chunksPts : List Chunk → List Point
  | [] => []
  | c :: cs => chunkPts c ++ chunksPts cs

/-- Verbs of a chunk list. -/
def chunksVerbs : List Chunk → List Verb
  | [] => []
  | c :: cs => chunkVerbs c ++ chunksVerbs cs

/-- How a chunk updates the running `first_position`. -/
def fpStep (fp : Point) : Chunk → Point
  | .block s _ _ => s
  | .loneClose => fp

/-- Running `first_position` after a chunk list. -/
def fpT (fp : Point) (cs : List Chunk) : Point := cs.foldl fpStep fp

/-- How a chunk updates the last stored point. -/
def lpStep (lp : Option Point) : Chunk → Option Point
  | .block s g _ => some (blockLast s g)
  | .loneClose => lp

/-- Last stored point after a chunk list. -/
def lpT (lp : Option Point) (cs : List Chunk) : Option Point := cs.foldl lpStep lp

/-- The snap condition a chunk satisfies in a built stream, given the
running first position and last stored point before it. -/
def chunkCond (fp : Point) (lp : Option Point) : Chunk → Prop
  | .block s g true => snapOK (blockLast s g) s
  | .block _ _ false => True
  | .loneClose => ∀ p, lp = some p → snapOK p fp

/-- All chunks of the list satisfy their snap condition, threading the
running first position and last stored point. -/
def chunksOKFrom (fp : Point) (lp : Option Point) : List Chunk → Prop
  | [] => True
  | c :: cs => chunkCond fp lp c ∧ chunksOKFrom (fpStep fp c) (lpStep lp c) cs

/-- Whether the head of the list is a block (or the list is empty). -/
def blockFollows : List Chunk → Prop
  | [] => True
  | .block _ _ _ :: _ => True
  | .loneClose :: _ => False

/-- A chunk list a builder can actually produce never has a bare `Close`
directly after a finished open block. -/
def Sane : List Chunk → Prop
  | [] => True
  | .block _ _ false :: cs => blockFollows cs ∧ Sane cs
  | _ :: cs => Sane cs

/-- The abstract builder state: the finished chunks plus the still open
sub-path (its start and segments), if any. -/
structure AState where
  chunks : List Chunk
  openSP : Option (Point × List Seg)
deriving DecidableEq, Repr

/-- The initial abstract state. -/
def A0 : AState := ⟨[], none⟩

/-- Points of the abstract state. -/
def AState.pts (st : AState) : List Point :=
  chunksPts st.chunks ++
    (match st.openSP with
     | none => []
     | some (s, g) => s :: segsPts g)

/-- Verbs of the abstract state (an open sub-path has no terminator yet). -/
def AState.vrb (st : AState) : List Verb :=
  chunksVerbs st.chunks ++
    (match st.openSP with
     | none => []
     | some (_, g) => .Begin :: segsVerbs g)

/-- The `first_position` of the abstract state. -/
def AState.fp (st : AState) : Point :=
  match st.openSP with
  | some (s, _) => s
  | none => fpT origin st.chunks

/-- The `need_moveto` flag of the abstract state. -/
def AState.needM (st : AState) : Bool := st.openSP.isNone

/-- The verb of the last segment of an open sub-path (`Begin` if none). -/
def lastSegVerb (g : List Seg) : Verb :=
  match g.getLast? with
  | none => .Begin
  | some sg => sg.verb

/-- The `last_cmd` recorded by a finished chunk. -/
def chunkLastCmd : Chunk → Verb
  | .block _ _ true => .Close
  | .block _ _ false => .End
  | .loneClose => .Close

/-- The `last_cmd` of the abstract state. -/
def AState.lastC (st : AState) : Verb :=
  match st.openSP with
  | some (_, g) => lastSegVerb g
  | none =>
    match st.chunks.getLast? with
    | none => .End
    | some c => chunkLastCmd c

/-- Abstract `move_to`. -/
def amove (st : AState) (t : Point) : AState :=
  match st.openSP with
  | some (s, g) => ⟨st.chunks ++ [.block s g false], some (t, [])⟩
  | none => ⟨st.chunks, some (t, [])⟩

/-- Abstract segment push (with the implicit move of the source). -/
def aseg (st : AState) (sg : Seg) : AState :=
  match st.openSP with
  | some (s, g) => ⟨st.chunks, some (s, g ++ [sg])⟩
  | none => ⟨st.chunks, some (st.fp, [sg])⟩

/-- Abstract `close`. -/
def aclose (st : AState) : AState :=
  match st.openSP with
  | some (s, g) => ⟨st.chunks ++ [.block s (snapSegs s g) true], none⟩
  | none => ⟨st.chunks ++ [.loneClose], none⟩

/-- Abstract transition for one builder call. -/
def astep (st : AState) : BuilderOp → AState
  | .move_to t => amove st t
  | .line_to t => aseg st (.line t)
  | .quadratic_bezier_to c t => aseg st (.quad c t)
  | .cubic_bezier_to c1 c2 t => aseg st (.cubic c1 c2 t)
  | .close => aclose st

/-- The concrete builder fields determined by the abstract state. -/
def SimRel (st : AState) (b : Builder) : Prop :=
  b.points = st.pts ∧ b.verbs = st.vrb ∧ b.first_position = st.fp ∧
    b.need_moveto = st.needM ∧ b.last_cmd = st.lastC

/-- When no sub-path is open, the last stored point has already been snapped
against the current first position. -/
def OpenNoneOK (st : AState) : Prop :=
  st.openSP = none → ∀ p, lpT none st.chunks = some p → snapOK p (fpT origin st.chunks)

/-- Sanity of the abstract state: a finished open block at the end of the
chunk list means a sub-path is currently open. -/
def SaneSt (st : AState) : Prop :=
  Sane st.chunks ∧
    ∀ s g, st.chunks.getLast? = some (.block s g false) → st.openSP.isSome = true

/-- All invariants of reachable abstract states. -/
def GoodSt (st : AState) : Prop :=
  chunksOKFrom origin none st.chunks ∧ SaneSt st ∧ OpenNoneOK st

/-- The builder call a segment corresponds to. -/
def segOp : Seg → BuilderOp
  | .line t => .line_to t
  | .quad c t => .quadratic_bezier_to c t
  | .cubic c1 c2 t => .cubic_bezier_to c1 c2 t

/-- The builder calls that produce a chunk. -/
def chunkCallOps : Chunk → List BuilderOp
  | .block s g true => .move_to s :: (g.map segOp ++ [.close])
  | .block s g false => .move_to s :: g.map segOp
  | .loneClose => [.close]

/-- The builder calls that produce a chunk list. -/
def csOps : List Chunk → List BuilderOp
  | [] => []
  | c :: cs => chunkCallOps c ++ csOps cs

/-- The abstract state after replaying the calls of a chunk list: the last
chunk stays open when it is an unterminated block. -/
def simST (cs : List Chunk) : AState :=
  match cs.getLast? with
  | some (.block s g false) => ⟨cs.dropLast, some (s, g)⟩
  | _ => ⟨cs, none⟩

/-- The segments of the reversed sub-path: walk the forward segments with
the previous endpoint at hand, reversing each and flipping the order. -/
def revSegs : Point → List Seg → List Seg
  | _, [] => []
  | prev, sg :: g => revSegs sg.to g ++ [sg.revWith prev]

/-- The reversed chunk (meaningful for blocks). -/
def revChunk : Chunk → Chunk
  | .block s g cl => .block (blockLast s g) (revSegs s g) cl
  | .loneClose => .loneClose

/-- The events a segment list produces from a previous endpoint. -/
def segEvs : Point → List Seg → List (Ev Point)
  | _, [] => []
  | prev, .line t :: g => .line prev t :: segEvs t g
  | prev, .quad c t :: g => .quadratic prev c t :: segEvs t g
  | prev, .cubic c1 c2 t :: g => .cubic prev c1 c2 t :: segEvs t g

/-- The events a chunk produces (the iterator state entering a chunk is
`current = first = fp`, the running first position). -/
def chunkEvs (fp : Point) : Chunk → List (Ev Point)
  | .block s g cl => .begin s :: (segEvs s g ++ [.end_ (blockLast s g) s cl])
  | .loneClose => [.end_ fp fp true]

/-- The events of a chunk list. -/
def chunksEvs (fp : Point) : List Chunk → List (Ev Point)
  | [] => []
  | c :: cs => chunkEvs fp c ++ chunksEvs (fpStep fp c) cs

/-! Lemmas. -/

theorem numPoints_append (xs ys : List Verb) :
    numPoints (xs ++ ys) = numPoints xs + numPoints ys := by
  induction xs with
  | nil => simp [numPoints]
  | cons v xs ih => simp [numPoints, ih]; omega

theorem numPoints_reverse (xs : List Verb) : numPoints xs.reverse = numPoints xs := by
  induction xs with
  | nil => rfl
  | cons v xs ih =>
    simp [List.reverse_cons, numPoints_append, numPoints, ih]; omega

/-- The event and identifier iterators emit kind-identical streams whenever
the verb stream never under-runs the points array. -/
theorem evAux_idAux_kinds (vs : List Verb) :
    ∀ (pts : List Point) (cur fst : Point) (ic ifs : Nat),
      numPoints vs ≤ pts.length →
      (evAux vs pts cur fst).map Ev.kind = (idAux vs ic ifs).map Ev.kind := by
  induction vs with
  | nil => intro pts cur fst ic ifs _; rfl
  | cons v vs ih =>
    intro pts cur fst ic ifs h
    cases v with
    | Begin =>
      cases pts with
      | nil => simp [numPoints, n_stored_points] at h
      | cons p rest =>
        simp only [evAux, idAux, List.map, Ev.kind]
        refine congrArg _ (ih rest p p _ _ ?_)
        simp [numPoints, n_stored_points] at h ⊢; omega
    | LineTo =>
      cases pts with
      | nil => simp [numPoints, n_stored_points] at h
      | cons p rest =>
        simp only [evAux, idAux, List.map, Ev.kind]
        refine congrArg _ (ih rest p fst _ _ ?_)
        simp [numPoints, n_stored_points] at h ⊢; omega
    | QuadraticTo =>
      match pts, h with
      | c :: p :: rest, h =>
        simp only [evAux, idAux, List.map, Ev.kind]
        refine congrArg _ (ih rest p fst _ _ ?_)
        simp [numPoints, n_stored_points] at h ⊢; omega
      | [], h => simp [numPoints, n_stored_points] at h
      | [c], h => simp [numPoints, n_stored_points] at h; omega
    | CubicTo =>
      match pts, h with
      | c1 :: c2 :: p :: rest, h =>
        simp only [evAux, idAux, List.map, Ev.kind]
        refine congrArg _ (ih rest p fst _ _ ?_)
        simp [numPoints, n_stored_points] at h ⊢; omega
      | [], h => simp [numPoints, n_stored_points] at h
      | [c1], h => simp [numPoints, n_stored_points] at h; omega
      | [c1, c2], h => simp [numPoints, n_stored_points] at h; omega
    | Close =>
      simp only [evAux, idAux, List.map, Ev.kind]
      refine congrArg _ (ih pts fst fst _ _ ?_)
      simp [numPoints, n_stored_points] at h ⊢; omega
    | End =>
      simp only [evAux, idAux, List.map, Ev.kind]
      refine congrArg _ (ih pts fst fst _ _ ?_)
      simp [numPoints, n_stored_points] at h ⊢; omega

theorem revAccessAux_append (len : Nat) (xs ys : List Verb) (p : Nat) :
    revAccessAux len (xs ++ ys) p =
      (revAccessAux len xs p && revAccessAux len ys (p - numPoints xs)) := by
  induction xs generalizing p with
  | nil => simp [revAccessAux, numPoints]
  | cons v xs ih =>
    have e1 : (v :: xs) ++ ys = v :: (xs ++ ys) := rfl
    rw [e1]
    show (accessCheck len p v && revAccessAux len (xs ++ ys) (p - n_stored_points v)) =
      ((accessCheck len p v && revAccessAux len xs (p - n_stored_points v)) &&
        revAccessAux len ys (p - numPoints (v :: xs)))
    rw [ih]
    have e2 : p - n_stored_points v - numPoints xs = p - numPoints (v :: xs) := by
      show _ = p - (n_stored_points v + numPoints xs); omega
    rw [e2, Bool.and_assoc]

theorem runsFrom_of_bool : ∀ (vs : List Verb) (b : Bool),
    runsBeginFirst b vs = true → RunsFrom b vs := by
  intro vs
  induction vs with
  | nil => intro b _; exact RunsFrom.nil b
  | cons v vs ih =>
    intro b h
    cases b <;> cases v <;> simp [runsBeginFirst] at h
    case false.LineTo => exact RunsFrom.mid _ _ (Or.inl rfl) (ih _ h)
    case false.QuadraticTo => exact RunsFrom.mid _ _ (Or.inr (Or.inl rfl)) (ih _ h)
    case false.CubicTo => exact RunsFrom.mid _ _ (Or.inr (Or.inr (Or.inl rfl))) (ih _ h)
    case false.Begin => exact RunsFrom.mid _ _ (Or.inr (Or.inr (Or.inr rfl))) (ih _ h)
    case false.Close => exact RunsFrom.closeRun _ (ih _ h)
    case false.End => exact RunsFrom.endRun _ (ih _ h)
    case true.Begin => exact RunsFrom.start _ (ih _ h)

theorem fwdAccess_of_runs {b : Bool} {vs : List Verb} (hr : RunsFrom b vs) :
    ∀ (len q : Nat), (b = false → 1 ≤ q) → q + numPoints vs ≤ len →
      fwdAccess len q vs = true := by
  induction hr with
  | nil b => intro len q _ _; rfl
  | start vs _ ih =>
    intro len q _ hle
    simp only [fwdAccess, accessCheck, n_stored_points, Bool.true_and]
    refine ih len (q + 1) (fun _ => by omega) ?_
    simp [numPoints, n_stored_points] at hle; omega
  | closeRun vs _ ih =>
    intro len q h1 hle
    have hq : 1 ≤ q := h1 rfl
    have hlen : q ≤ len := by simp [numPoints, n_stored_points] at hle; omega
    simp only [fwdAccess, accessCheck, n_stored_points, Nat.add_zero]
    rw [decide_eq_true (by omega : 1 ≤ q ∧ q - 1 < len), Bool.true_and]
    refine ih len q (fun h => by cases h) ?_
    simp [numPoints, n_stored_points] at hle; omega
  | endRun vs _ ih =>
    intro len q h1 hle
    have hq : 1 ≤ q := h1 rfl
    have hlen : q ≤ len := by simp [numPoints, n_stored_points] at hle; omega
    simp only [fwdAccess, accessCheck, n_stored_points, Nat.add_zero]
    rw [decide_eq_true (by omega : 1 ≤ q ∧ q - 1 < len), Bool.true_and]
    refine ih len q (fun h => by cases h) ?_
    simp [numPoints, n_stored_points] at hle; omega
  | mid v vs hv _ ih =>
    intro len q h1 hle
    have hq : 1 ≤ q := h1 rfl
    rcases hv with h | h | h | h <;> subst h
    · simp only [fwdAccess, accessCheck, n_stored_points]
      have hlen : q + 1 ≤ len := by simp [numPoints, n_stored_points] at hle; omega
      rw [decide_eq_true (by omega : 2 ≤ q + 1 ∧ q + 1 - 2 < len), Bool.true_and]
      exact ih len (q + 1) (fun _ => by omega)
        (by simp [numPoints, n_stored_points] at hle ⊢; omega)
    · simp only [fwdAccess, accessCheck, n_stored_points]
      have hlen : q + 2 ≤ len := by simp [numPoints, n_stored_points] at hle; omega
      rw [decide_eq_true
        (by omega : 3 ≤ q + 2 ∧ q + 2 - 2 < len ∧ q + 2 - 3 < len), Bool.true_and]
      exact ih len (q + 2) (fun _ => by omega)
        (by simp [numPoints, n_stored_points] at hle ⊢; omega)
    · simp only [fwdAccess, accessCheck, n_stored_points]
      have hlen : q + 3 ≤ len := by simp [numPoints, n_stored_points] at hle; omega
      rw [decide_eq_true
        (by omega : 4 ≤ q + 3 ∧ q + 3 - 2 < len ∧ q + 3 - 3 < len ∧ q + 3 - 4 < len),
        Bool.true_and]
      exact ih len (q + 3) (fun _ => by omega)
        (by simp [numPoints, n_stored_points] at hle ⊢; omega)
    · simp only [fwdAccess, accessCheck, n_stored_points, Bool.true_and]
      exact ih len (q + 1) (fun _ => by omega)
        (by simp [numPoints, n_stored_points] at hle ⊢; omega)

theorem revAccess_eq_fwd (len : Nat) : ∀ (us : List Verb) (q : Nat),
    revAccessAux len us.reverse (q + numPoints us) = fwdAccess len q us := by
  intro us
  induction us with
  | nil => intro q; rfl
  | cons v rest ih =>
    intro q
    have h1 : numPoints (v :: rest) = n_stored_points v + numPoints rest := rfl
    rw [List.reverse_cons, revAccessAux_append, numPoints_reverse, h1]
    have h2 : q + (n_stored_points v + numPoints rest) = q + n_stored_points v + numPoints rest := by
      omega
    rw [h2, Nat.add_sub_cancel, ih (q + n_stored_points v)]
    show _ = fwdAccess len q (v :: rest)
    simp only [fwdAccess, revAccessAux, Nat.sub_zero, Bool.and_true]
    exact Bool.and_comm _ _

/-- Access safety of `reverse_path` for streams whose runs all open with
`Begin` and whose arities exactly account for the points. -/
theorem reverseAccessOk_of_wf (pts : List Point) (vs : List Verb)
    (hnum : numPoints vs = pts.length) (hruns : runsBeginFirst true vs = true) :
    reverseAccessOk pts vs = true := by
  unfold reverseAccessOk
  have h0 := revAccess_eq_fwd pts.length vs 0
  rw [show 0 + numPoints vs = pts.length by omega] at h0
  rw [h0]
  exact fwdAccess_of_runs (runsFrom_of_bool vs true hruns) pts.length 0
    (fun h => by cases h) (by omega)

theorem getLast?_cons_ne {α : Type} (a : α) {l : List α} (h : l ≠ []) :
    (a :: l).getLast? = l.getLast? := by
  have := List.getLast?_append_of_ne_nil [a] h
  simpa using this

theorem segsPts_append (g1 g2 : List Seg) :
    segsPts (g1 ++ g2) = segsPts g1 ++ segsPts g2 := by
  induction g1 with
  | nil => rfl
  | cons sg g ih => simp [segsPts, ih]

theorem segsVerbs_append (g1 g2 : List Seg) :
    segsVerbs (g1 ++ g2) = segsVerbs g1 ++ segsVerbs g2 := by
  induction g1 with
  | nil => rfl
  | cons sg g ih => simp [segsVerbs, ih]

theorem chunksPts_append (cs ds : List Chunk) :
    chunksPts (cs ++ ds) = chunksPts cs ++ chunksPts ds := by
  induction cs with
  | nil => rfl
  | cons c cs ih => simp [chunksPts, ih]

theorem chunksVerbs_append (cs ds : List Chunk) :
    chunksVerbs (cs ++ ds) = chunksVerbs cs ++ chunksVerbs ds := by
  induction cs with
  | nil => rfl
  | cons c cs ih => simp [chunksVerbs, ih]

theorem Seg.pts_ne_nil (sg : Seg) : sg.pts ≠ [] := by
  cases sg <;> simp [Seg.pts]

theorem segsPts_ne_nil {g : List Seg} (h : g ≠ []) : segsPts g ≠ [] := by
  cases g with
  | nil => exact absurd rfl h
  | cons sg g => simp [segsPts]; intro hc; exact absurd hc sg.pts_ne_nil

theorem Seg.pts_getLast (sg : Seg) : sg.pts.getLast? = some sg.to := by
  cases sg <;> rfl

theorem blockLast_cons {g : List Seg} (s : Point) (sg : Seg) (h : g ≠ []) :
    blockLast s (sg :: g) = blockLast s g := by
  unfold blockLast
  rw [getLast?_cons_ne sg h]

theorem segsPts_getLast {g : List Seg} (h : g ≠ []) (s : Point) :
    (segsPts g).getLast? = some (blockLast s g) := by
  induction g with
  | nil => exact absurd rfl h
  | cons sg g ih =>
    cases g with
    | nil =>
      show (sg.pts ++ []).getLast? = _
      rw [List.append_nil, sg.pts_getLast]
      rfl
    | cons sg2 g2 =>
      show (sg.pts ++ segsPts (sg2 :: g2)).getLast? = _
      rw [List.getLast?_append_of_ne_nil _ (segsPts_ne_nil (by simp)),
        ih (by simp), blockLast_cons s sg (by simp)]

theorem cons_segsPts_getLast (s : Point) (g : List Seg) :
    (s :: segsPts g).getLast? = some (blockLast s g) := by
  cases g with
  | nil => rfl
  | cons sg g2 =>
    rw [getLast?_cons_ne s (segsPts_ne_nil (by simp)), segsPts_getLast (by simp) s]

theorem blockLast_concat (s : Point) (g : List Seg) (sg : Seg) :
    blockLast s (g ++ [sg]) = sg.to := by
  unfold blockLast
  rw [List.getLast?_append_of_ne_nil _ (by simp)]
  rfl

theorem lastSegVerb_concat (g : List Seg) (sg : Seg) :
    lastSegVerb (g ++ [sg]) = sg.verb := by
  unfold lastSegVerb
  rw [List.getLast?_append_of_ne_nil _ (by simp)]
  rfl

theorem Seg.withTo_verb (sg : Seg) (t : Point) : (sg.withTo t).verb = sg.verb := by
  cases sg <;> rfl

theorem Seg.withTo_to (sg : Seg) (t : Point) : (sg.withTo t).to = t := by
  cases sg <;> rfl

theorem segsVerbs_replaceLastTo (g : List Seg) (t : Point) :
    segsVerbs (replaceLastTo g t) = segsVerbs g := by
  induction g with
  | nil => rfl
  | cons sg g ih =>
    cases g with
    | nil => simp [replaceLastTo, segsVerbs, Seg.withTo_verb]
    | cons sg2 g2 =>
      show segsVerbs (sg :: replaceLastTo (sg2 :: g2) t) = _
      simp [segsVerbs, ih]

theorem replaceLastTo_ne_nil {g : List Seg} (t : Point) (h : g ≠ []) :
    replaceLastTo g t ≠ [] := by
  cases g with
  | nil => exact absurd rfl h
  | cons sg g => cases g <;> simp [replaceLastTo]

theorem Seg.pts_dropLast_to (sg : Seg) (t : Point) :
    (sg.withTo t).pts = sg.pts.dropLast ++ [t] := by
  cases sg <;> rfl

theorem segsPts_replaceLastTo {g : List Seg} (t : Point) (h : g ≠ []) :
    segsPts (replaceLastTo g t) = (segsPts g).dropLast ++ [t] := by
  induction g with
  | nil => exact absurd rfl h
  | cons sg g ih =>
    cases g with
    | nil =>
      show segsPts [sg.withTo t] = _
      simp [segsPts, Seg.pts_dropLast_to]
    | cons sg2 g2 =>
      show segsPts (sg :: replaceLastTo (sg2 :: g2) t) = _
      show sg.pts ++ segsPts (replaceLastTo (sg2 :: g2) t) = _
      rw [ih (by simp)]
      show _ = (sg.pts ++ segsPts (sg2 :: g2)).dropLast ++ [t]
      rw [List.dropLast_append_of_ne_nil _ (segsPts_ne_nil (by simp)), List.append_assoc]

theorem blockLast_replaceLastTo {g : List Seg} (s t : Point) (h : g ≠ []) :
    blockLast s (replaceLastTo g t) = t := by
  induction g with
  | nil => exact absurd rfl h
  | cons sg g ih =>
    cases g with
    | nil =>
      show blockLast s [sg.withTo t] = t
      unfold blockLast
      simp [Seg.withTo_to]
    | cons sg2 g2 =>
      show blockLast s (sg :: replaceLastTo (sg2 :: g2) t) = t
      rw [blockLast_cons s sg (replaceLastTo_ne_nil t (by simp)), ih (by simp)]

theorem snapSegs_verbs (s : Point) (g : List Seg) :
    segsVerbs (snapSegs s g) = segsVerbs g := by
  unfold snapSegs
  split
  · exact segsVerbs_replaceLastTo g s
  · rfl

theorem blockLast_snapSegs (s : Point) (g : List Seg) :
    snapOK (blockLast s (snapSegs s g)) s := by
  unfold snapSegs
  split
  · cases g with
    | nil => exact Or.inl rfl
    | cons sg g2 => exact Or.inl (blockLast_replaceLastTo s s (by simp))
  · right; assumption

theorem snapDist_self (p : Point) : snapDist p p = 0 := by
  simp [snapDist]

theorem tol_pos : (0 : ℚ) < tol := by norm_num [tol]

theorem snapDist_comm (p q : Point) : snapDist p q = snapDist q p := by
  unfold snapDist
  rw [abs_sub_comm, abs_sub_comm p.y]

theorem snapOK_symm {p q : Point} (h : snapOK p q) : snapOK q p := by
  rcases h with h | h
  · exact Or.inl h.symm
  · exact Or.inr (by rw [snapDist_comm]; exact h)

theorem snapLast_append (A : List Point) {l : List Point} (q : Point) (h : l ≠ []) :
    snapLast (A ++ l) q = A ++ snapLast l q := by
  unfold snapLast
  rw [List.getLast?_append_of_ne_nil _ h]
  cases hl : l.getLast? with
  | none => rfl
  | some p =>
    show (if snapDist p q < tol then (A ++ l).dropLast ++ [q] else A ++ l) =
      A ++ (if snapDist p q < tol then l.dropLast ++ [q] else l)
    by_cases hd : snapDist p q < tol
    · rw [if_pos hd, if_pos hd, List.dropLast_append_of_ne_nil _ h, List.append_assoc]
    · rw [if_neg hd, if_neg hd]

theorem snapLast_block (s : Point) (g : List Seg) :
    snapLast (s :: segsPts g) s = s :: segsPts (snapSegs s g) := by
  unfold snapLast
  rw [cons_segsPts_getLast]
  show (if snapDist (blockLast s g) s < tol
      then (s :: segsPts g).dropLast ++ [s] else s :: segsPts g) = _
  unfold snapSegs
  by_cases hd : snapDist (blockLast s g) s < tol
  · rw [if_pos hd, if_pos hd]
    cases g with
    | nil => rfl
    | cons sg g2 =>
      rw [segsPts_replaceLastTo s (by simp)]
      show (([s] ++ segsPts (sg :: g2)).dropLast ++ [s]) = _
      rw [List.dropLast_append_of_ne_nil _ (segsPts_ne_nil (by simp))]
      simp
  · rw [if_neg hd, if_neg hd]

theorem snapLast_of_snapOK {pts : List Point} {q p : Point}
    (h : pts.getLast? = some p) (hk : snapOK p q) : snapLast pts q = pts := by
  unfold snapLast
  rw [h]
  show (if snapDist p q < tol then pts.dropLast ++ [q] else pts) = pts
  rcases hk with rfl | hk
  · rw [if_pos (by rw [snapDist_self]; exact tol_pos)]
    exact List.dropLast_append_getLast? p (by simp [Option.mem_def, h])
  · rw [if_neg hk]

theorem numPoints_segsVerbs (g : List Seg) :
    numPoints (segsVerbs g) = (segsPts g).length := by
  induction g with
  | nil => rfl
  | cons sg g ih =>
    show numPoints (sg.verb :: segsVerbs g) = (sg.pts ++ segsPts g).length
    show n_stored_points sg.verb + numPoints (segsVerbs g) = _
    rw [List.length_append, ih]
    cases sg <;> rfl

theorem numPoints_chunkVerbs (c : Chunk) :
    numPoints (chunkVerbs c) = (chunkPts c).length := by
  cases c with
  | block s g cl =>
    cases cl <;>
      (simp [chunkVerbs, chunkPts, numPoints, numPoints_append, numPoints_segsVerbs,
        n_stored_points]
       omega)
  | loneClose => rfl

theorem numPoints_chunksVerbs (cs : List Chunk) :
    numPoints (chunksVerbs cs) = (chunksPts cs).length := by
  induction cs with
  | nil => rfl
  | cons c cs ih =>
    show numPoints (chunkVerbs c ++ chunksVerbs cs) = (chunkPts c ++ chunksPts cs).length
    rw [numPoints_append, List.length_append, numPoints_chunkVerbs c, ih]

theorem fpT_append (a : Point) (cs ds : List Chunk) :
    fpT a (cs ++ ds) = fpT (fpT a cs) ds := by
  unfold fpT
  rw [List.foldl_append]

theorem lpT_append (b : Option Point) (cs ds : List Chunk) :
    lpT b (cs ++ ds) = lpT (lpT b cs) ds := by
  unfold lpT
  rw [List.foldl_append]

theorem lpT_eq_getLast (b0 : Option Point) (cs : List Chunk) :
    lpT b0 cs = ((chunksPts cs).getLast?).or b0 := by
  induction cs generalizing b0 with
  | nil => rfl
  | cons c cs ih =>
    show lpT (lpStep b0 c) cs = ((chunkPts c ++ chunksPts cs).getLast?).or b0
    rw [ih]
    cases hx : (chunksPts cs).getLast? with
    | some p =>
      rw [List.getLast?_append_of_ne_nil _ (fun hc => by
        rw [hc] at hx; exact Option.noConfusion hx), hx]
      rfl
    | none =>
      have hnil : chunksPts cs = [] := List.getLast?_eq_none_iff.mp hx
      rw [hnil, List.append_nil]
      cases c with
      | block s g cl =>
        show (some (blockLast s g)).or b0 = ((s :: segsPts g).getLast?).or b0
        rw [cons_segsPts_getLast]
      | loneClose => rfl

theorem chunksOKFrom_append (a : Point) (b : Option Point) (cs ds : List Chunk) :
    chunksOKFrom a b (cs ++ ds) ↔
      chunksOKFrom a b cs ∧ chunksOKFrom (fpT a cs) (lpT b cs) ds := by
  induction cs generalizing a b with
  | nil => simp [chunksOKFrom, fpT, lpT]
  | cons c cs ih =>
    show chunkCond a b c ∧ chunksOKFrom (fpStep a c) (lpStep b c) (cs ++ ds) ↔ _
    rw [ih]
    show _ ↔ (chunkCond a b c ∧ chunksOKFrom (fpStep a c) (lpStep b c) cs) ∧ _
    constructor
    · rintro ⟨h1, h2, h3⟩; exact ⟨⟨h1, h2⟩, h3⟩
    · rintro ⟨⟨h1, h2⟩, h3⟩; exact ⟨h1, h2, h3⟩

theorem blockFollows_cons_block (s : Point) (g : List Seg) (cl : Bool) (cs : List Chunk) :
    blockFollows (Chunk.block s g cl :: cs) := trivial

theorem sane_append_block (cs : List Chunk) (s : Point) (g : List Seg) (cl : Bool)
    (h : Sane cs) : Sane (cs ++ [Chunk.block s g cl]) := by
  induction cs with
  | nil => cases cl <;> exact (by constructor <;> trivial)
  | cons c cs ih =>
    cases c with
    | block s' g' cl' =>
      cases cl' with
      | false =>
        obtain ⟨hbf, hs⟩ := h
        refine ⟨?_, ih hs⟩
        cases cs with
        | nil => exact trivial
        | cons d cs2 =>
          cases d with
          | block _ _ _ => exact trivial
          | loneClose => exact absurd hbf (by simp [blockFollows])
      | true => exact ih h
    | loneClose => exact ih h

theorem sane_append_loneClose (cs : List Chunk)
    (h : Sane cs) (h2 : ∀ s g, cs.getLast? ≠ some (Chunk.block s g false)) :
    Sane (cs ++ [Chunk.loneClose]) := by
  induction cs with
  | nil => exact trivial
  | cons c cs ih =>
    cases c with
    | block s' g' cl' =>
      cases cl' with
      | false =>
        obtain ⟨hbf, hs⟩ := h
        cases cs with
        | nil => exact absurd rfl (h2 s' g')
        | cons d cs2 =>
          refine ⟨?_, ih hs (fun s g => by
            have := h2 s g
            rwa [getLast?_cons_ne _ (by simp)] at this)⟩
          cases d with
          | block _ _ _ => exact trivial
          | loneClose => exact absurd hbf (by simp [blockFollows])
      | true =>
        show Sane (cs ++ [Chunk.loneClose])
        cases cs with
        | nil => exact trivial
        | cons d cs2 =>
          exact ih h (fun s g => by
            have := h2 s g
            rwa [getLast?_cons_ne _ (by simp)] at this)
    | loneClose =>
      show Sane (cs ++ [Chunk.loneClose])
      cases cs with
      | nil => exact trivial
      | cons d cs2 =>
        exact ih h (fun s g => by
          have := h2 s g
          rwa [getLast?_cons_ne _ (by simp)] at this)

theorem sane_extract_loneClose (done rest : List Chunk)
    (h : Sane (done ++ Chunk.loneClose :: rest)) :
    ∀ s g, done.getLast? ≠ some (Chunk.block s g false) := by
  induction done with
  | nil => intro s g hc; exact Option.noConfusion hc
  | cons c done ih =>
    intro s g
    cases done with
    | nil =>
      intro hc
      have hc2 : c = Chunk.block s g false := by
        simpa using hc
      subst hc2
      obtain ⟨hbf, _⟩ := h
      exact absurd hbf (by simp [blockFollows])
    | cons d done2 =>
      rw [getLast?_cons_ne _ (by simp)]
      refine ih ?_ s g
      cases c with
      | block s' g' cl' =>
        cases cl' with
        | false => exact h.2
        | true => exact h
      | loneClose => exact h

theorem sane_of_all_blocks (cs : List Chunk)
    (h : ∀ c ∈ cs, ∃ s g cl, c = Chunk.block s g cl) : Sane cs := by
  induction cs with
  | nil => exact trivial
  | cons c cs ih =>
    obtain ⟨s, g, cl, hc⟩ := h c (by simp)
    subst hc
    have hrest : Sane cs := ih (fun d hd => h d (by simp [hd]))
    cases cl with
    | false =>
      refine ⟨?_, hrest⟩
      cases cs with
      | nil => exact trivial
      | cons d cs2 =>
        obtain ⟨s2, g2, cl2, hd⟩ := h d (by simp)
        subst hd
        exact trivial
    | true => exact hrest

theorem getLast?_concat' {α : Type} (l : List α) (a : α) : (l ++ [a]).getLast? = some a := by
  rw [List.getLast?_append_of_ne_nil _ (by simp)]
  rfl

theorem rank_lastSegVerb_le (g : List Seg) : (lastSegVerb g).rank ≤ 3 := by
  unfold lastSegVerb
  cases g.getLast? with
  | none => show Verb.Begin.rank ≤ 3; decide
  | some sg =>
    cases sg with
    | line t => show Verb.LineTo.rank ≤ 3; decide
    | quad c t => show Verb.QuadraticTo.rank ≤ 3; decide
    | cubic c1 c2 t => show Verb.CubicTo.rank ≤ 3; decide

theorem lastC_none_rank (st : AState) (h : st.openSP = none) : 3 < st.lastC.rank := by
  unfold AState.lastC
  rw [h]
  cases hx : st.chunks.getLast? with
  | none => show 3 < Verb.End.rank; decide
  | some c =>
    cases c with
    | block s g cl =>
      cases cl with
      | false => show 3 < Verb.End.rank; decide
      | true => show 3 < Verb.Close.rank; decide
    | loneClose => show 3 < Verb.Close.rank; decide

theorem end_if_needed_of_le (b : Builder) (h : b.last_cmd.rank ≤ 3) :
    b.end_if_needed = { b with verbs := b.verbs ++ [Verb.End] } := by
  unfold Builder.end_if_needed
  rw [show Verb.Begin.rank = 3 from rfl]
  rw [if_pos h]

theorem end_if_needed_of_gt (b : Builder) (h : 3 < b.last_cmd.rank) :
    b.end_if_needed = b := by
  unfold Builder.end_if_needed
  rw [show Verb.Begin.rank = 3 from rfl]
  rw [if_neg (by omega)]

theorem seg_push (b : Builder) (sg : Seg) :
    applyOp b (segOp sg) =
      { b.move_to_if_needed with
        points := b.move_to_if_needed.points ++ sg.pts
        verbs := b.move_to_if_needed.verbs ++ [sg.verb]
        current_position := sg.to
        last_cmd := sg.verb } := by
  cases sg <;> rfl

theorem lastC_append_none (cs : List Chunk) (c : Chunk) :
    (AState.mk (cs ++ [c]) none).lastC = chunkLastCmd c := by
  unfold AState.lastC
  rw [getLast?_concat']

theorem fp_append_none (cs : List Chunk) (c : Chunk) :
    (AState.mk (cs ++ [c]) none).fp = fpStep (fpT origin cs) c := by
  unfold AState.fp fpT
  rw [List.foldl_append]
  rfl

theorem sim_move (st : AState) (b : Builder) (t : Point)
    (hs : SimRel st b) : SimRel (amove st t) (b.move_to t) := by
  obtain ⟨hp, hv, hf, hn, hl⟩ := hs
  cases hO : st.openSP with
  | some sp =>
    obtain ⟨s, g⟩ := sp
    have hrank : b.last_cmd.rank ≤ 3 := by
      rw [hl]
      unfold AState.lastC
      rw [hO]
      exact rank_lastSegVerb_le g
    unfold Builder.move_to
    rw [end_if_needed_of_le b hrank]
    unfold amove
    rw [hO]
    refine ⟨?_, ?_, rfl, rfl, rfl⟩
    · show b.points ++ [t] =
        chunksPts (st.chunks ++ [Chunk.block s g false]) ++ (t :: segsPts [])
      rw [hp, chunksPts_append]
      unfold AState.pts
      rw [hO]
      simp [chunkPts, chunksPts, segsPts]
    · show b.verbs ++ [Verb.End] ++ [Verb.Begin] =
        chunksVerbs (st.chunks ++ [Chunk.block s g false]) ++
          (Verb.Begin :: segsVerbs [])
      rw [hv, chunksVerbs_append]
      unfold AState.vrb
      rw [hO]
      simp [chunkVerbs, chunksVerbs, segsVerbs]
  | none =>
    have hrank : 3 < b.last_cmd.rank := by
      rw [hl]
      exact lastC_none_rank st hO
    unfold Builder.move_to
    rw [end_if_needed_of_gt b hrank]
    unfold amove
    rw [hO]
    refine ⟨?_, ?_, rfl, rfl, rfl⟩
    · show b.points ++ [t] = chunksPts st.chunks ++ (t :: segsPts [])
      rw [hp]
      unfold AState.pts
      rw [hO]
      simp [segsPts]
    · show b.verbs ++ [Verb.Begin] = chunksVerbs st.chunks ++ (Verb.Begin :: segsVerbs [])
      rw [hv]
      unfold AState.vrb
      rw [hO]
      simp [segsVerbs]

theorem sim_seg (st : AState) (b : Builder) (sg : Seg)
    (hs : SimRel st b) : SimRel (aseg st sg) (applyOp b (segOp sg)) := by
  obtain ⟨hp, hv, hf, hn, hl⟩ := hs
  rw [seg_push]
  cases hO : st.openSP with
  | some sp =>
    obtain ⟨s, g⟩ := sp
    have hb1 : b.move_to_if_needed = b := by
      unfold Builder.move_to_if_needed
      rw [hn]
      unfold AState.needM
      rw [hO]
      rfl
    rw [hb1]
    unfold aseg
    rw [hO]
    refine ⟨?_, ?_, ?_, ?_, ?_⟩
    case refine_4 =>
      show b.need_moveto = false
      rw [hn]
      unfold AState.needM
      rw [hO]
      rfl
    · show b.points ++ sg.pts = chunksPts st.chunks ++ (s :: segsPts (g ++ [sg]))
      rw [hp]
      unfold AState.pts
      rw [hO, segsPts_append]
      simp [segsPts]
    · show b.verbs ++ [sg.verb] =
        chunksVerbs st.chunks ++ (Verb.Begin :: segsVerbs (g ++ [sg]))
      rw [hv]
      unfold AState.vrb
      rw [hO, segsVerbs_append]
      simp [segsVerbs]
    · show b.first_position = s
      rw [hf]
      unfold AState.fp
      rw [hO]
    · show sg.verb = lastSegVerb (g ++ [sg])
      rw [lastSegVerb_concat]
  | none =>
    have hb1 : b.move_to_if_needed = b.move_to b.first_position := by
      unfold Builder.move_to_if_needed
      rw [hn]
      unfold AState.needM
      rw [hO]
      rfl
    have hrank : 3 < b.last_cmd.rank := by
      rw [hl]
      exact lastC_none_rank st hO
    rw [hb1]
    unfold Builder.move_to
    rw [end_if_needed_of_gt b hrank]
    unfold aseg
    rw [hO]
    refine ⟨?_, ?_, ?_, rfl, ?_⟩
    · show b.points ++ [b.first_position] ++ sg.pts =
        chunksPts st.chunks ++ (st.fp :: segsPts [sg])
      rw [hp, hf]
      unfold AState.pts
      rw [hO]
      simp [segsPts]
    · show b.verbs ++ [Verb.Begin] ++ [sg.verb] =
        chunksVerbs st.chunks ++ (Verb.Begin :: segsVerbs [sg])
      rw [hv]
      unfold AState.vrb
      rw [hO]
      simp [segsVerbs]
    · show b.first_position = st.fp
      exact hf
    · show sg.verb = lastSegVerb [sg]
      unfold lastSegVerb
      rfl

theorem sim_close (st : AState) (b : Builder)
    (hg : GoodSt st) (hs : SimRel st b) : SimRel (aclose st) b.close := by
  obtain ⟨hp, hv, hf, hn, hl⟩ := hs
  unfold Builder.close
  cases hO : st.openSP with
  | some sp =>
    obtain ⟨s, g⟩ := sp
    unfold aclose
    rw [hO]
    have hfp : b.first_position = s := by
      rw [hf]
      unfold AState.fp
      rw [hO]
    refine ⟨?_, ?_, ?_, rfl, ?_⟩
    · show snapLast b.points b.first_position =
        chunksPts (st.chunks ++ [Chunk.block s (snapSegs s g) true]) ++ []
      rw [hp, hfp, chunksPts_append]
      unfold AState.pts
      rw [hO]
      rw [snapLast_append _ _ (by simp), snapLast_block]
      simp [chunkPts, chunksPts]
    · show b.verbs ++ [Verb.Close] =
        chunksVerbs (st.chunks ++ [Chunk.block s (snapSegs s g) true]) ++ []
      rw [hv, chunksVerbs_append]
      unfold AState.vrb
      rw [hO]
      simp [chunkVerbs, chunksVerbs, snapSegs_verbs]
    · show b.first_position = (AState.mk (st.chunks ++ [Chunk.block s (snapSegs s g) true]) none).fp
      rw [fp_append_none, hfp]
      rfl
    · show Verb.Close = (AState.mk (st.chunks ++ [Chunk.block s (snapSegs s g) true]) none).lastC
      rw [lastC_append_none]
      rfl
  | none =>
    unfold aclose
    rw [hO]
    have hfp : b.first_position = fpT origin st.chunks := by
      rw [hf]
      unfold AState.fp
      rw [hO]
    have hsnap : snapLast b.points b.first_position = b.points := by
      rw [hp, hfp]
      unfold AState.pts
      rw [hO, List.append_nil]
      cases hgl : (chunksPts st.chunks).getLast? with
      | none =>
        unfold snapLast
        rw [hgl]
      | some p =>
        refine snapLast_of_snapOK hgl ?_
        refine hg.2.2 hO p ?_
        rw [lpT_eq_getLast, hgl]
        rfl
    refine ⟨?_, ?_, ?_, rfl, ?_⟩
    · show snapLast b.points b.first_position =
        chunksPts (st.chunks ++ [Chunk.loneClose]) ++ []
      rw [hsnap, hp, chunksPts_append]
      unfold AState.pts
      rw [hO]
      simp [chunkPts, chunksPts]
    · show b.verbs ++ [Verb.Close] = chunksVerbs (st.chunks ++ [Chunk.loneClose]) ++ []
      rw [hv, chunksVerbs_append]
      unfold AState.vrb
      rw [hO]
      simp [chunkVerbs, chunksVerbs]
    · show b.first_position = (AState.mk (st.chunks ++ [Chunk.loneClose]) none).fp
      rw [fp_append_none, hfp]
      rfl
    · show Verb.Close = (AState.mk (st.chunks ++ [Chunk.loneClose]) none).lastC
      rw [lastC_append_none]
      rfl

theorem lpT_concat (b : Option Point) (cs : List Chunk) (c : Chunk) :
    lpT b (cs ++ [c]) = lpStep (lpT b cs) c := by
  rw [lpT_append]
  rfl

theorem fpT_concat (a : Point) (cs : List Chunk) (c : Chunk) :
    fpT a (cs ++ [c]) = fpStep (fpT a cs) c := by
  rw [fpT_append]
  rfl

theorem chunksOKFrom_concat (a : Point) (b : Option Point) (cs : List Chunk) (c : Chunk)
    (h : chunksOKFrom a b cs) (hc : chunkCond (fpT a cs) (lpT b cs) c) :
    chunksOKFrom a b (cs ++ [c]) := by
  rw [chunksOKFrom_append]
  exact ⟨h, hc, trivial⟩

theorem good_move (st : AState) (t : Point) (hg : GoodSt st) : GoodSt (amove st t) := by
  obtain ⟨hok, ⟨hsane, hlast⟩, _⟩ := hg
  cases hO : st.openSP with
  | some sp =>
    obtain ⟨s, g⟩ := sp
    unfold amove
    rw [hO]
    refine ⟨?_, ⟨?_, ?_⟩, ?_⟩
    · exact chunksOKFrom_concat _ _ _ _ hok trivial
    · exact sane_append_block _ _ _ _ hsane
    · intro s' g' _; rfl
    · intro h; exact Option.noConfusion h
  | none =>
    unfold amove
    rw [hO]
    refine ⟨hok, ⟨hsane, ?_⟩, ?_⟩
    · intro s' g' _; rfl
    · intro h; exact Option.noConfusion h

theorem good_seg (st : AState) (sg : Seg) (hg : GoodSt st) : GoodSt (aseg st sg) := by
  obtain ⟨hok, ⟨hsane, hlast⟩, _⟩ := hg
  cases hO : st.openSP with
  | some sp =>
    obtain ⟨s, g⟩ := sp
    unfold aseg
    rw [hO]
    exact ⟨hok, ⟨hsane, fun s' g' _ => rfl⟩, fun h => Option.noConfusion h⟩
  | none =>
    unfold aseg
    rw [hO]
    exact ⟨hok, ⟨hsane, fun s' g' _ => rfl⟩, fun h => Option.noConfusion h⟩

theorem good_close (st : AState) (hg : GoodSt st) : GoodSt (aclose st) := by
  obtain ⟨hok, ⟨hsane, hlast⟩, hon⟩ := hg
  cases hO : st.openSP with
  | some sp =>
    obtain ⟨s, g⟩ := sp
    unfold aclose
    rw [hO]
    refine ⟨?_, ⟨?_, ?_⟩, ?_⟩
    · exact chunksOKFrom_concat _ _ _ _ hok (blockLast_snapSegs s g)
    · exact sane_append_block _ _ _ _ hsane
    · intro s' g' h
      rw [getLast?_concat'] at h
      simp at h
    · intro _ p hp
      rw [lpT_concat] at hp
      have hp2 : p = blockLast s (snapSegs s g) := by
        have : lpStep (lpT none st.chunks) (Chunk.block s (snapSegs s g) true) =
          some (blockLast s (snapSegs s g)) := rfl
        rw [this] at hp
        exact (Option.some.injEq _ _ ▸ hp).symm
      subst hp2
      rw [fpT_concat]
      exact blockLast_snapSegs s g
  | none =>
    unfold aclose
    rw [hO]
    refine ⟨?_, ⟨?_, ?_⟩, ?_⟩
    · exact chunksOKFrom_concat _ _ _ _ hok (hon hO)
    · refine sane_append_loneClose _ hsane ?_
      intro s g hc
      have := hlast s g hc
      rw [hO] at this
      exact Bool.noConfusion this
    · intro s' g' h
      rw [getLast?_concat'] at h
      simp at h
    · intro _ p hp
      rw [lpT_concat] at hp
      rw [fpT_concat]
      exact hon hO p hp

theorem astep_sim_good (st : AState) (b : Builder) (op : BuilderOp)
    (hg : GoodSt st) (hs : SimRel st b) :
    GoodSt (astep st op) ∧ SimRel (astep st op) (applyOp b op) := by
  cases op with
  | move_to t => exact ⟨good_move st t hg, sim_move st b t hs⟩
  | line_to t => exact ⟨good_seg st (.line t) hg, sim_seg st b (.line t) hs⟩
  | quadratic_bezier_to c t => exact ⟨good_seg st (.quad c t) hg, sim_seg st b (.quad c t) hs⟩
  | cubic_bezier_to c1 c2 t =>
    exact ⟨good_seg st (.cubic c1 c2 t) hg, sim_seg st b (.cubic c1 c2 t) hs⟩
  | close => exact ⟨good_close st hg, sim_close st b hg hs⟩

theorem foldGood (ops : List BuilderOp) : ∀ (st : AState) (b : Builder),
    GoodSt st → SimRel st b →
    GoodSt (List.foldl astep st ops) ∧
      SimRel (List.foldl astep st ops) (List.foldl applyOp b ops) := by
  induction ops with
  | nil => intro st b hg hs; exact ⟨hg, hs⟩
  | cons op ops ih =>
    intro st b hg hs
    obtain ⟨hg', hs'⟩ := astep_sim_good st b op hg hs
    exact ih _ _ hg' hs'

theorem A0_good : GoodSt A0 :=
  ⟨trivial, ⟨trivial, fun s g h => Option.noConfusion h⟩, fun _ p hp => Option.noConfusion hp⟩

theorem A0_sim : SimRel A0 Builder.new := ⟨rfl, rfl, rfl, rfl, rfl⟩

theorem applyOps_spec (ops : List BuilderOp) :
    GoodSt (List.foldl astep A0 ops) ∧
      SimRel (List.foldl astep A0 ops) (applyOps ops) :=
  foldGood ops A0 Builder.new A0_good A0_sim

/-- Every built path is the encoding of a well-formed, sane chunk list. -/
theorem buildOps_chunks (ops : List BuilderOp) :
    ∃ cs : List Chunk,
      buildOps ops = { points := chunksPts cs, verbs := chunksVerbs cs } ∧
        chunksOKFrom origin none cs ∧ Sane cs := by
  obtain ⟨hg, hp, hv, hf, hn, hl⟩ := applyOps_spec ops
  cases hO : (List.foldl astep A0 ops).openSP with
  | some sp =>
    obtain ⟨s, g⟩ := sp
    refine ⟨(List.foldl astep A0 ops).chunks ++ [.block s g false], ?_, ?_, ?_⟩
    · have hrank : (applyOps ops).last_cmd.rank ≤ 3 := by
        rw [hl]
        unfold AState.lastC
        rw [hO]
        exact rank_lastSegVerb_le g
      unfold buildOps Builder.build
      rw [end_if_needed_of_le _ hrank]
      refine congrArg₂ Path.mk ?_ ?_
      · show (applyOps ops).points = _
        rw [hp, chunksPts_append]
        unfold AState.pts
        rw [hO]
        simp [chunkPts, chunksPts]
      · show (applyOps ops).verbs ++ [Verb.End] = _
        rw [hv, chunksVerbs_append]
        unfold AState.vrb
        rw [hO]
        simp [chunkVerbs, chunksVerbs]
    · exact chunksOKFrom_concat _ _ _ _ hg.1 trivial
    · exact sane_append_block _ _ _ _ hg.2.1.1
  | none =>
    refine ⟨(List.foldl astep A0 ops).chunks, ?_, hg.1, hg.2.1.1⟩
    have hrank : 3 < (applyOps ops).last_cmd.rank := by
      rw [hl]
      exact lastC_none_rank _ hO
    unfold buildOps Builder.build
    rw [end_if_needed_of_gt _ hrank]
    refine congrArg₂ Path.mk ?_ ?_
    · rw [hp]
      unfold AState.pts
      rw [hO, List.append_nil]
    · rw [hv]
      unfold AState.vrb
      rw [hO, List.append_nil]

theorem runsOK_segs (g : List Seg) (rest : List Verb) :
    runsOK false (segsVerbs g ++ rest) = runsOK false rest := by
  induction g with
  | nil => rfl
  | cons sg g ih =>
    show runsOK false (sg.verb :: (segsVerbs g ++ rest)) = _
    cases sg with
    | line t =>
      show runsOK false (segsVerbs g ++ rest) = _
      exact ih
    | quad c t =>
      show runsOK false (segsVerbs g ++ rest) = _
      exact ih
    | cubic c1 c2 t =>
      show runsOK false (segsVerbs g ++ rest) = _
      exact ih

theorem runsOK_chunk (c : Chunk) (rest : List Verb) :
    runsOK true (chunkVerbs c ++ rest) = runsOK true rest := by
  cases c with
  | block s g cl =>
    cases cl with
    | true =>
      show runsOK true (Verb.Begin :: ((segsVerbs g ++ [Verb.Close]) ++ rest)) = _
      show runsOK false ((segsVerbs g ++ [Verb.Close]) ++ rest) = _
      rw [List.append_assoc, runsOK_segs]
      rfl
    | false =>
      show runsOK true (Verb.Begin :: ((segsVerbs g ++ [Verb.End]) ++ rest)) = _
      show runsOK false ((segsVerbs g ++ [Verb.End]) ++ rest) = _
      rw [List.append_assoc, runsOK_segs]
      rfl
  | loneClose => rfl

theorem runsOK_chunks (cs : List Chunk) (rest : List Verb) :
    runsOK true (chunksVerbs cs ++ rest) = runsOK true rest := by
  induction cs with
  | nil => rfl
  | cons c cs ih =>
    show runsOK true ((chunkVerbs c ++ chunksVerbs cs) ++ rest) = _
    rw [List.append_assoc, runsOK_chunk, ih]

theorem runsOK_chunksVerbs (cs : List Chunk) : runsOK true (chunksVerbs cs) = true := by
  have := runsOK_chunks cs []
  rwa [List.append_nil] at this

theorem beginsPreceded_of_runsOK (vs : List Verb) : ∀ (b : Bool),
    runsOK b vs = true → beginsPreceded vs = true := by
  induction vs with
  | nil => intro b _; rfl
  | cons a vs ih =>
    intro b h
    cases vs with
    | nil => rfl
    | cons b' rest =>
      show ((decide (b' ≠ Verb.Begin) || decide (a = Verb.Close) || decide (a = Verb.End)) &&
        beginsPreceded (b' :: rest)) = true
      rw [Bool.and_eq_true]
      constructor
      · by_cases hb : b' = Verb.Begin
        · subst hb
          cases b <;> cases a <;> simp [runsOK] at h ⊢
        · simp [hb]
      · cases b <;> cases a <;> simp [runsOK] at h <;> exact ih _ h

theorem evAux_append (v1 : List Verb) : ∀ (pts1 : List Point) (v2 : List Verb)
    (pts2 : List Point) (cur fst : Point),
    numPoints v1 = pts1.length →
    ∃ cur2 fst2, evAux (v1 ++ v2) (pts1 ++ pts2) cur fst =
      evAux v1 pts1 cur fst ++ evAux v2 pts2 cur2 fst2 := by
  induction v1 with
  | nil =>
    intro pts1 v2 pts2 cur fst h
    have : pts1 = [] := by
      have : pts1.length = 0 := by
        rw [← h]
        rfl
      exact List.length_eq_zero.mp this
    subst this
    exact ⟨cur, fst, rfl⟩
  | cons v v1 ih =>
    intro pts1 v2 pts2 cur fst h
    cases v with
    | Begin =>
      match pts1, h with
      | p :: rest, h =>
        obtain ⟨c2, f2, e⟩ := ih rest v2 pts2 p p
          (by simp [numPoints, n_stored_points] at h ⊢; omega)
        exact ⟨c2, f2, by
          show Ev.begin p :: evAux (v1 ++ v2) (rest ++ pts2) p p = _
          rw [e]
          rfl⟩
      | [], h => simp [numPoints, n_stored_points] at h
    | LineTo =>
      match pts1, h with
      | p :: rest, h =>
        obtain ⟨c2, f2, e⟩ := ih rest v2 pts2 p fst
          (by simp [numPoints, n_stored_points] at h ⊢; omega)
        exact ⟨c2, f2, by
          show Ev.line cur p :: evAux (v1 ++ v2) (rest ++ pts2) p fst = _
          rw [e]
          rfl⟩
      | [], h => simp [numPoints, n_stored_points] at h
    | QuadraticTo =>
      match pts1, h with
      | c :: p :: rest, h =>
        obtain ⟨c2, f2, e⟩ := ih rest v2 pts2 p fst
          (by simp [numPoints, n_stored_points] at h ⊢; omega)
        exact ⟨c2, f2, by
          show Ev.quadratic cur c p :: evAux (v1 ++ v2) (rest ++ pts2) p fst = _
          rw [e]
          rfl⟩
      | [], h => simp [numPoints, n_stored_points] at h
      | [c], h => simp [numPoints, n_stored_points] at h; omega
    | CubicTo =>
      match pts1, h with
      | c1 :: c2 :: p :: rest, h =>
        obtain ⟨cc2, f2, e⟩ := ih rest v2 pts2 p fst
          (by simp [numPoints, n_stored_points] at h ⊢; omega)
        exact ⟨cc2, f2, by
          show Ev.cubic cur c1 c2 p :: evAux (v1 ++ v2) (rest ++ pts2) p fst = _
          rw [e]
          rfl⟩
      | [], h => simp [numPoints, n_stored_points] at h
      | [c1], h => simp [numPoints, n_stored_points] at h; omega
      | [c1, c2], h => simp [numPoints, n_stored_points] at h; omega
    | Close =>
      obtain ⟨c2, f2, e⟩ := ih pts1 v2 pts2 fst fst
        (by simp [numPoints, n_stored_points] at h ⊢; omega)
      exact ⟨c2, f2, by
        show Ev.end_ cur fst true :: evAux (v1 ++ v2) (pts1 ++ pts2) fst fst = _
        rw [e]
        rfl⟩
    | End =>
      obtain ⟨c2, f2, e⟩ := ih pts1 v2 pts2 fst fst
        (by simp [numPoints, n_stored_points] at h ⊢; omega)
      exact ⟨c2, f2, by
        show Ev.end_ cur fst false :: evAux (v1 ++ v2) (pts1 ++ pts2) fst fst = _
        rw [e]
        rfl⟩

theorem evAux_begin_state (vs : List Verb) (pts : List Point) (c1 f1 c2 f2 : Point)
    (h : vs = [] ∨ ∃ vs2, vs = Verb.Begin :: vs2) :
    evAux vs pts c1 f1 = evAux vs pts c2 f2 := by
  rcases h with rfl | ⟨vs2, rfl⟩
  · rfl
  · cases pts <;> rfl

theorem blockLast_cons_to (prev : Point) (sg : Seg) (g : List Seg) :
    blockLast prev (sg :: g) = blockLast sg.to g := by
  unfold blockLast
  cases hx : g.getLast? with
  | none =>
    have hg : g = [] := List.getLast?_eq_none_iff.mp hx
    subst hg
    rfl
  | some sg2 =>
    have hne : g ≠ [] := by
      intro hc
      subst hc
      exact Option.noConfusion hx
    rw [getLast?_cons_ne _ hne, hx]

theorem evAux_segs (g : List Seg) : ∀ (vs : List Verb) (pts : List Point) (prev fst : Point),
    evAux (segsVerbs g ++ vs) (segsPts g ++ pts) prev fst =
      segEvs prev g ++ evAux vs pts (blockLast prev g) fst := by
  induction g with
  | nil => intro vs pts prev fst; rfl
  | cons sg g ih =>
    intro vs pts prev fst
    cases sg with
    | line t =>
      show evAux (Verb.LineTo :: (segsVerbs g ++ vs)) ((t :: segsPts g) ++ pts) prev fst = _
      show Ev.line prev t :: evAux (segsVerbs g ++ vs) (segsPts g ++ pts) t fst = _
      rw [ih]
      rw [show blockLast prev (Seg.line t :: g) = blockLast t g from blockLast_cons_to _ _ _]
      rfl
    | quad c t =>
      show evAux (Verb.QuadraticTo :: (segsVerbs g ++ vs)) ((c :: t :: segsPts g) ++ pts)
        prev fst = _
      show Ev.quadratic prev c t :: evAux (segsVerbs g ++ vs) (segsPts g ++ pts) t fst = _
      rw [ih]
      rw [show blockLast prev (Seg.quad c t :: g) = blockLast t g from blockLast_cons_to _ _ _]
      rfl
    | cubic c1 c2 t =>
      show evAux (Verb.CubicTo :: (segsVerbs g ++ vs)) ((c1 :: c2 :: t :: segsPts g) ++ pts)
        prev fst = _
      show Ev.cubic prev c1 c2 t :: evAux (segsVerbs g ++ vs) (segsPts g ++ pts) t fst = _
      rw [ih]
      rw [show blockLast prev (Seg.cubic c1 c2 t :: g) = blockLast t g from
        blockLast_cons_to _ _ _]
      rfl

theorem events_chunk (c : Chunk) (rest : List Verb) (restPts : List Point) (fp : Point) :
    evAux (chunkVerbs c ++ rest) (chunkPts c ++ restPts) fp fp =
      chunkEvs fp c ++ evAux rest restPts (fpStep fp c) (fpStep fp c) := by
  cases c with
  | block s g cl =>
    cases cl with
    | true =>
      show evAux (Verb.Begin :: ((segsVerbs g ++ [Verb.Close]) ++ rest))
        ((s :: segsPts g) ++ restPts) fp fp = _
      show Ev.begin s ::
        evAux ((segsVerbs g ++ [Verb.Close]) ++ rest) (segsPts g ++ restPts) s s = _
      rw [List.append_assoc, evAux_segs]
      show Ev.begin s :: (segEvs s g ++
        (Ev.end_ (blockLast s g) s true :: evAux rest restPts s s)) = _
      show _ = (Ev.begin s :: (segEvs s g ++ [Ev.end_ (blockLast s g) s true])) ++
        evAux rest restPts s s
      simp
    | false =>
      show evAux (Verb.Begin :: ((segsVerbs g ++ [Verb.End]) ++ rest))
        ((s :: segsPts g) ++ restPts) fp fp = _
      show Ev.begin s ::
        evAux ((segsVerbs g ++ [Verb.End]) ++ rest) (segsPts g ++ restPts) s s = _
      rw [List.append_assoc, evAux_segs]
      show Ev.begin s :: (segEvs s g ++
        (Ev.end_ (blockLast s g) s false :: evAux rest restPts s s)) = _
      show _ = (Ev.begin s :: (segEvs s g ++ [Ev.end_ (blockLast s g) s false])) ++
        evAux rest restPts s s
      simp
  | loneClose => rfl

theorem events_encode (cs : List Chunk) : ∀ (fp : Point),
    evAux (chunksVerbs cs) (chunksPts cs) fp fp = chunksEvs fp cs := by
  induction cs with
  | nil => intro fp; rfl
  | cons c cs ih =>
    intro fp
    show evAux (chunkVerbs c ++ chunksVerbs cs) (chunkPts c ++ chunksPts cs) fp fp = _
    rw [events_chunk, ih]
    rfl

theorem replay_segEvs (g : List Seg) : ∀ (prev : Point) (b : Builder),
    List.foldl replayStep b (segEvs prev g) = List.foldl applyOp b (g.map segOp) := by
  induction g with
  | nil => intro prev b; rfl
  | cons sg g ih =>
    intro prev b
    cases sg with
    | line t => exact ih t (b.line_to t)
    | quad c t => exact ih t (b.quadratic_bezier_to c t)
    | cubic c1 c2 t => exact ih t (b.cubic_bezier_to c1 c2 t)

theorem replay_chunk (c : Chunk) (fp : Point) (b : Builder) :
    List.foldl replayStep b (chunkEvs fp c) = List.foldl applyOp b (chunkCallOps c) := by
  cases c with
  | block s g cl =>
    cases cl with
    | true =>
      show List.foldl replayStep (b.move_to s) (segEvs s g ++ [Ev.end_ (blockLast s g) s true]) =
        List.foldl applyOp (b.move_to s) (g.map segOp ++ [BuilderOp.close])
      rw [List.foldl_append, List.foldl_append, replay_segEvs]
      rfl
    | false =>
      show List.foldl replayStep (b.move_to s) (segEvs s g ++ [Ev.end_ (blockLast s g) s false]) =
        List.foldl applyOp (b.move_to s) (g.map segOp)
      rw [List.foldl_append, replay_segEvs]
      rfl
  | loneClose => rfl

theorem replay_chunks (cs : List Chunk) : ∀ (fp : Point) (b : Builder),
    List.foldl replayStep b (chunksEvs fp cs) = List.foldl applyOp b (csOps cs) := by
  induction cs with
  | nil => intro fp b; rfl
  | cons c cs ih =>
    intro fp b
    show List.foldl replayStep b (chunkEvs fp c ++ chunksEvs (fpStep fp c) cs) =
      List.foldl applyOp b (chunkCallOps c ++ csOps cs)
    rw [List.foldl_append, List.foldl_append, replay_chunk, ih]

theorem astep_segOp (st : AState) (sg : Seg) : astep st (segOp sg) = aseg st sg := by
  cases sg <;> rfl

theorem asegs_fold (g : List Seg) : ∀ (cs : List Chunk) (s : Point) (g0 : List Seg),
    List.foldl astep (AState.mk cs (some (s, g0))) (g.map segOp) =
      AState.mk cs (some (s, g0 ++ g)) := by
  induction g with
  | nil => intro cs s g0; simp
  | cons sg g ih =>
    intro cs s g0
    show List.foldl astep (astep (AState.mk cs (some (s, g0))) (segOp sg)) (g.map segOp) = _
    rw [astep_segOp]
    show List.foldl astep (AState.mk cs (some (s, g0 ++ [sg]))) (g.map segOp) = _
    rw [ih]
    rw [List.append_assoc]
    rfl

theorem simST_nil : simST [] = A0 := rfl

theorem simST_concat_closed (cs : List Chunk) (s : Point) (g : List Seg) :
    simST (cs ++ [Chunk.block s g true]) = AState.mk (cs ++ [Chunk.block s g true]) none := by
  unfold simST
  rw [getLast?_concat']

theorem simST_concat_open (cs : List Chunk) (s : Point) (g : List Seg) :
    simST (cs ++ [Chunk.block s g false]) = AState.mk cs (some (s, g)) := by
  unfold simST
  rw [getLast?_concat']
  show AState.mk (cs ++ [Chunk.block s g false]).dropLast (some (s, g)) = _
  rw [List.dropLast_concat]

theorem simST_concat_lc (cs : List Chunk) :
    simST (cs ++ [Chunk.loneClose]) = AState.mk (cs ++ [Chunk.loneClose]) none := by
  unfold simST
  rw [getLast?_concat']

theorem simST_open_none (cs : List Chunk)
    (h : ∀ s g, cs.getLast? ≠ some (Chunk.block s g false)) :
    simST cs = AState.mk cs none := by
  unfold simST
  cases hx : cs.getLast? with
  | none => rfl
  | some c =>
    cases c with
    | block s g cl =>
      cases cl with
      | false => exact absurd hx (h s g)
      | true => rfl
    | loneClose => rfl

theorem Seg.withTo_self (sg : Seg) : sg.withTo sg.to = sg := by
  cases sg <;> rfl

theorem replaceLastTo_getLast (g : List Seg) : ∀ (sg0 : Seg),
    g.getLast? = some sg0 → replaceLastTo g (sg0.to) = g := by
  induction g with
  | nil => intro sg0 h; exact Option.noConfusion h
  | cons sg g ih =>
    intro sg0 h
    cases g with
    | nil =>
      have : sg = sg0 := by simpa using h
      subst this
      show [sg.withTo sg.to] = [sg]
      rw [Seg.withTo_self]
    | cons sg2 g2 =>
      rw [getLast?_cons_ne _ (by simp)] at h
      show sg :: replaceLastTo (sg2 :: g2) sg0.to = _
      rw [ih sg0 h]

theorem snapSegs_of_snapOK (s : Point) (g : List Seg)
    (h : snapOK (blockLast s g) s) : snapSegs s g = g := by
  unfold snapSegs
  split
  case isTrue hd =>
    rcases h with h | h
    · cases g with
      | nil => rfl
      | cons sg g2 =>
        cases hx : (sg :: g2).getLast? with
        | none => exact Option.noConfusion hx
        | some sg0 =>
          have hbl : blockLast s (sg :: g2) = sg0.to := by
            unfold blockLast
            rw [hx]
          rw [← h, hbl]
          exact replaceLastTo_getLast _ sg0 hx
    · exact absurd hd h
  case isFalse => rfl

theorem amove_simST (done : List Chunk) (s : Point) :
    amove (simST done) s = AState.mk done (some (s, [])) := by
  unfold simST
  cases hx : done.getLast? with
  | none =>
    show amove (AState.mk done none) s = _
    rfl
  | some c =>
    cases c with
    | block s0 g0 cl =>
      cases cl with
      | false =>
        show amove (AState.mk done.dropLast (some (s0, g0))) s = _
        show AState.mk (done.dropLast ++ [Chunk.block s0 g0 false]) (some (s, [])) = _
        rw [List.dropLast_append_getLast? _ (by rw [Option.mem_def]; exact hx)]
      | true =>
        show amove (AState.mk done none) s = _
        rfl
    | loneClose =>
      show amove (AState.mk done none) s = _
      rfl

theorem chunk_step (done : List Chunk) (c : Chunk)
    (hcond : chunkCond (fpT origin done) (lpT none done) c)
    (hlc : c = Chunk.loneClose → ∀ s g, done.getLast? ≠ some (Chunk.block s g false)) :
    List.foldl astep (simST done) (chunkCallOps c) = simST (done ++ [c]) := by
  cases c with
  | block s g cl =>
    cases cl with
    | true =>
      show List.foldl astep (simST done)
        (BuilderOp.move_to s :: (g.map segOp ++ [BuilderOp.close])) = _
      show List.foldl astep (astep (simST done) (BuilderOp.move_to s))
        (g.map segOp ++ [BuilderOp.close]) = _
      rw [show astep (simST done) (BuilderOp.move_to s) = amove (simST done) s from rfl,
        amove_simST, List.foldl_append, asegs_fold]
      show astep (AState.mk done (some (s, [] ++ g))) BuilderOp.close = _
      rw [List.nil_append]
      show aclose (AState.mk done (some (s, g))) = _
      show AState.mk (done ++ [Chunk.block s (snapSegs s g) true]) none = _
      rw [snapSegs_of_snapOK s g hcond, simST_concat_closed]
    | false =>
      show List.foldl astep (simST done) (BuilderOp.move_to s :: g.map segOp) = _
      show List.foldl astep (astep (simST done) (BuilderOp.move_to s)) (g.map segOp) = _
      rw [show astep (simST done) (BuilderOp.move_to s) = amove (simST done) s from rfl,
        amove_simST, asegs_fold, List.nil_append, simST_concat_open]
  | loneClose =>
    show List.foldl astep (simST done) [BuilderOp.close] = _
    rw [simST_open_none done (hlc rfl)]
    show aclose (AState.mk done none) = _
    show AState.mk (done ++ [Chunk.loneClose]) none = _
    rw [simST_concat_lc]

theorem chunksim (cs : List Chunk) : ∀ (done : List Chunk),
    chunksOKFrom origin none (done ++ cs) → Sane (done ++ cs) →
    List.foldl astep (simST done) (csOps cs) = simST (done ++ cs) := by
  induction cs with
  | nil =>
    intro done _ _
    rw [List.append_nil]
    rfl
  | cons c cs ih =>
    intro done hok hsane
    show List.foldl astep (simST done) (chunkCallOps c ++ csOps cs) = _
    rw [List.foldl_append]
    have hcond : chunkCond (fpT origin done) (lpT none done) c :=
      ((chunksOKFrom_append origin none done (c :: cs)).mp hok).2.1
    have hlc : c = Chunk.loneClose → ∀ s g,
        done.getLast? ≠ some (Chunk.block s g false) := by
      intro hc
      subst hc
      exact sane_extract_loneClose done cs hsane
    rw [chunk_step done c hcond hlc]
    have he : done ++ c :: cs = (done ++ [c]) ++ cs := by simp
    rw [he] at hok hsane ⊢
    exact ih (done ++ [c]) hok hsane

theorem build_of_sim_simST (cs : List Chunk) (b : Builder)
    (hs : SimRel (simST cs) b) :
    b.build = { points := chunksPts cs, verbs := chunksVerbs cs } := by
  unfold Builder.build
  rcases hx : cs.getLast? with _ | ⟨s, g, cl⟩ | _
  case none =>
    rw [simST_open_none cs (fun s g hc => by rw [hx] at hc; exact Option.noConfusion hc)] at hs
    obtain ⟨hp, hv, _, _, hl⟩ := hs
    have hrank : 3 < b.last_cmd.rank := by
      rw [hl]
      exact lastC_none_rank _ rfl
    rw [end_if_needed_of_gt b hrank]
    refine congrArg₂ Path.mk ?_ ?_
    · rw [hp]
      unfold AState.pts
      rw [List.append_nil]
    · rw [hv]
      unfold AState.vrb
      rw [List.append_nil]
  case some.block =>
    have hcs : cs.dropLast ++ [Chunk.block s g cl] = cs :=
      List.dropLast_append_getLast? _ (by rw [Option.mem_def]; exact hx)
    cases cl with
    | false =>
      have hst : simST cs = AState.mk cs.dropLast (some (s, g)) := by
        rw [← hcs, simST_concat_open, hcs]
      rw [hst] at hs
      obtain ⟨hp, hv, _, _, hl⟩ := hs
      have hrank : b.last_cmd.rank ≤ 3 := by
        rw [hl]
        exact rank_lastSegVerb_le g
      rw [end_if_needed_of_le b hrank]
      refine congrArg₂ Path.mk ?_ ?_
      · rw [hp]
        unfold AState.pts
        rw [← hcs, chunksPts_append]
        simp [chunkPts, chunksPts]
      · show b.verbs ++ [Verb.End] = _
        rw [hv]
        unfold AState.vrb
        rw [← hcs, chunksVerbs_append]
        simp [chunkVerbs, chunksVerbs]
    | true =>
      have hst : simST cs = AState.mk cs none := by
        refine simST_open_none cs ?_
        intro s2 g2 hc
        rw [hx] at hc
        simp at hc
      rw [hst] at hs
      obtain ⟨hp, hv, _, _, hl⟩ := hs
      have hrank : 3 < b.last_cmd.rank := by
        rw [hl]
        exact lastC_none_rank _ rfl
      rw [end_if_needed_of_gt b hrank]
      refine congrArg₂ Path.mk ?_ ?_
      · rw [hp]
        unfold AState.pts
        rw [List.append_nil]
      · rw [hv]
        unfold AState.vrb
        rw [List.append_nil]
  case some.loneClose =>
    have hst : simST cs = AState.mk cs none := by
      refine simST_open_none cs ?_
      intro s2 g2 hc
      rw [hx] at hc
      simp at hc
    rw [hst] at hs
    obtain ⟨hp, hv, _, _, hl⟩ := hs
    have hrank : 3 < b.last_cmd.rank := by
      rw [hl]
      exact lastC_none_rank _ rfl
    rw [end_if_needed_of_gt b hrank]
    refine congrArg₂ Path.mk ?_ ?_
    · rw [hp]
      unfold AState.pts
      rw [List.append_nil]
    · rw [hv]
      unfold AState.vrb
      rw [List.append_nil]

theorem build_encode (cs : List Chunk)
    (hok : chunksOKFrom origin none cs) (hsane : Sane cs) :
    buildOps (csOps cs) = { points := chunksPts cs, verbs := chunksVerbs cs } := by
  have hsim := (applyOps_spec (csOps cs)).2
  have hst : List.foldl astep A0 (csOps cs) = simST cs := by
    have := chunksim cs [] (by simpa using hok) (by simpa using hsane)
    simpa using this
  rw [hst] at hsim
  exact build_of_sim_simST cs _ hsim

theorem getD_append_right' {α : Type} (A l : List α) (d : α) (k : Nat) :
    (A ++ l).getD (A.length + k) d = l.getD k d := by
  simp [List.getD, List.getElem?_append_right]

theorem getD_of_getLast? {α : Type} (l : List α) (x d : α) (h : l.getLast? = some x) :
    l.getD (l.length - 1) d = x := by
  rw [List.getLast?_eq_getElem?] at h
  rw [List.getD_eq_getElem?_getD, h]
  rfl

theorem applyOpsFrom_append (b : Builder) (xs ys : List BuilderOp) :
    applyOpsFrom b (xs ++ ys) = applyOpsFrom (applyOpsFrom b xs) ys := by
  unfold applyOpsFrom
  rw [List.foldl_append]

theorem revFold_append (pts : List Point) (xs ys : List Verb) : ∀ (p : Nat) (nc : Bool)
    (b : Builder),
    revFold pts (xs ++ ys) p nc b =
      revFold pts ys (revFold pts xs p nc b).1 (revFold pts xs p nc b).2.1
        (revFold pts xs p nc b).2.2 := by
  induction xs with
  | nil => intro p nc b; rfl
  | cons v xs ih =>
    intro p nc b
    show revFold pts (xs ++ ys) (p - n_stored_points v) (revVisit pts p nc b v).1
      (revVisit pts p nc b v).2 = _
    rw [ih]
    rfl

theorem Seg.revWith_to (sg : Seg) (p : Point) : (sg.revWith p).to = p := by
  cases sg <;> rfl

theorem revFold_segs (g : List Seg) : ∀ (A EXT : List Point) (prev : Point) (nc : Bool)
    (b : Builder),
    revFold (A ++ (prev :: segsPts g) ++ EXT) ((segsVerbs g).reverse)
      (A.length + 1 + (segsPts g).length) nc b
    = (A.length + 1, nc, applyOpsFrom b ((revSegs prev g).map segOp)) := by
  induction g with
  | nil =>
    intro A EXT prev nc b
    show (A.length + 1 + (segsPts []).length, nc, b) = _
    rfl
  | cons sg g ih =>
    intro A EXT prev nc b
    cases sg with
    | line t =>
      have hverbs : (segsVerbs (Seg.line t :: g)).reverse =
        (segsVerbs g).reverse ++ [Verb.LineTo] := by
        simp [segsVerbs, Seg.verb]
      have hpts : A ++ (prev :: segsPts (Seg.line t :: g)) ++ EXT =
        (A ++ [prev]) ++ (t :: segsPts g) ++ EXT := by
        simp [segsPts, Seg.pts]
      have hp : A.length + 1 + (segsPts (Seg.line t :: g)).length =
        (A ++ [prev]).length + 1 + (segsPts g).length := by
        simp [segsPts, Seg.pts]
        omega
      rw [hverbs, hpts, hp, revFold_append, ih (A ++ [prev]) EXT t nc b]
      show revFold ((A ++ [prev]) ++ (t :: segsPts g) ++ EXT) [Verb.LineTo]
        ((A ++ [prev]).length + 1) nc (applyOpsFrom b ((revSegs t g).map segOp)) = _
      show ((A ++ [prev]).length + 1 - 1, nc,
        (applyOpsFrom b ((revSegs t g).map segOp)).line_to
          (((A ++ [prev]) ++ (t :: segsPts g) ++ EXT).getD
            ((A ++ [prev]).length + 1 - 2) origin)) = _
      rw [show (A ++ [prev]) ++ (t :: segsPts g) ++ EXT =
        A ++ (prev :: (t :: (segsPts g ++ EXT))) from by simp]
      rw [show (A ++ [prev]).length + 1 - 2 = A.length + 0 from by simp]
      rw [getD_append_right' A _ origin 0]
      rw [show (A ++ [prev]).length + 1 - 1 = A.length + 1 from by simp]
      show (A.length + 1, nc,
        (applyOpsFrom b ((revSegs t g).map segOp)).line_to prev) = _
      rw [show revSegs prev (Seg.line t :: g) = revSegs t g ++ [Seg.line prev] from rfl]
      rw [List.map_append, applyOpsFrom_append]
      rfl
    | quad c t =>
      have hverbs : (segsVerbs (Seg.quad c t :: g)).reverse =
        (segsVerbs g).reverse ++ [Verb.QuadraticTo] := by
        simp [segsVerbs, Seg.verb]
      have hpts : A ++ (prev :: segsPts (Seg.quad c t :: g)) ++ EXT =
        (A ++ [prev, c]) ++ (t :: segsPts g) ++ EXT := by
        simp [segsPts, Seg.pts]
      have hp : A.length + 1 + (segsPts (Seg.quad c t :: g)).length =
        (A ++ [prev, c]).length + 1 + (segsPts g).length := by
        simp [segsPts, Seg.pts]
        omega
      rw [hverbs, hpts, hp, revFold_append, ih (A ++ [prev, c]) EXT t nc b]
      show revFold ((A ++ [prev, c]) ++ (t :: segsPts g) ++ EXT) [Verb.QuadraticTo]
        ((A ++ [prev, c]).length + 1) nc (applyOpsFrom b ((revSegs t g).map segOp)) = _
      show ((A ++ [prev, c]).length + 1 - 2, nc,
        (applyOpsFrom b ((revSegs t g).map segOp)).quadratic_bezier_to
          (((A ++ [prev, c]) ++ (t :: segsPts g) ++ EXT).getD
            ((A ++ [prev, c]).length + 1 - 2) origin)
          (((A ++ [prev, c]) ++ (t :: segsPts g) ++ EXT).getD
            ((A ++ [prev, c]).length + 1 - 3) origin)) = _
      rw [show (A ++ [prev, c]) ++ (t :: segsPts g) ++ EXT =
        A ++ (prev :: c :: (t :: (segsPts g ++ EXT))) from by simp]
      rw [show (A ++ [prev, c]).length + 1 - 3 = A.length + 0 from by simp]
      rw [show (A ++ [prev, c]).length + 1 - 2 = A.length + 1 from by simp]
      rw [getD_append_right' A _ origin 0, getD_append_right' A _ origin 1]
      show (A.length + 1, nc,
        (applyOpsFrom b ((revSegs t g).map segOp)).quadratic_bezier_to c prev) = _
      rw [show revSegs prev (Seg.quad c t :: g) = revSegs t g ++ [Seg.quad c prev] from rfl]
      rw [List.map_append, applyOpsFrom_append]
      rfl
    | cubic c1 c2 t =>
      have hverbs : (segsVerbs (Seg.cubic c1 c2 t :: g)).reverse =
        (segsVerbs g).reverse ++ [Verb.CubicTo] := by
        simp [segsVerbs, Seg.verb]
      have hpts : A ++ (prev :: segsPts (Seg.cubic c1 c2 t :: g)) ++ EXT =
        (A ++ [prev, c1, c2]) ++ (t :: segsPts g) ++ EXT := by
        simp [segsPts, Seg.pts]
      have hp : A.length + 1 + (segsPts (Seg.cubic c1 c2 t :: g)).length =
        (A ++ [prev, c1, c2]).length + 1 + (segsPts g).length := by
        simp [segsPts, Seg.pts]
        omega
      rw [hverbs, hpts, hp, revFold_append, ih (A ++ [prev, c1, c2]) EXT t nc b]
      show revFold ((A ++ [prev, c1, c2]) ++ (t :: segsPts g) ++ EXT) [Verb.CubicTo]
        ((A ++ [prev, c1, c2]).length + 1) nc (applyOpsFrom b ((revSegs t g).map segOp)) = _
      show ((A ++ [prev, c1, c2]).length + 1 - 3, nc,
        (applyOpsFrom b ((revSegs t g).map segOp)).cubic_bezier_to
          (((A ++ [prev, c1, c2]) ++ (t :: segsPts g) ++ EXT).getD
            ((A ++ [prev, c1, c2]).length + 1 - 2) origin)
          (((A ++ [prev, c1, c2]) ++ (t :: segsPts g) ++ EXT).getD
            ((A ++ [prev, c1, c2]).length + 1 - 3) origin)
          (((A ++ [prev, c1, c2]) ++ (t :: segsPts g) ++ EXT).getD
            ((A ++ [prev, c1, c2]).length + 1 - 4) origin)) = _
      rw [show (A ++ [prev, c1, c2]) ++ (t :: segsPts g) ++ EXT =
        A ++ (prev :: c1 :: c2 :: (t :: (segsPts g ++ EXT))) from by simp]
      rw [show (A ++ [prev, c1, c2]).length + 1 - 4 = A.length + 0 from by simp]
      rw [show (A ++ [prev, c1, c2]).length + 1 - 3 = A.length + 1 from by simp]
      rw [show (A ++ [prev, c1, c2]).length + 1 - 2 = A.length + 2 from by simp]
      rw [getD_append_right' A _ origin 0, getD_append_right' A _ origin 1,
        getD_append_right' A _ origin 2]
      show (A.length + 1, nc,
        (applyOpsFrom b ((revSegs t g).map segOp)).cubic_bezier_to c2 c1 prev) = _
      rw [show revSegs prev (Seg.cubic c1 c2 t :: g) =
        revSegs t g ++ [Seg.cubic c2 c1 prev] from rfl]
      rw [List.map_append, applyOpsFrom_append]
      rfl

theorem getD_append_left' {α : Type} (L R : List α) (d : α) (i : Nat) (h : i < L.length) :
    (L ++ R).getD i d = L.getD i d := by
  simp [List.getD, List.getElem?_append_left h]

theorem revFold_block (s : Point) (g : List Seg) (cl : Bool) (A EXT : List Point)
    (b : Builder) :
    revFold (A ++ (s :: segsPts g) ++ EXT) ((chunkVerbs (Chunk.block s g cl)).reverse)
      (A.length + (s :: segsPts g).length) false b
    = (A.length, false, applyOpsFrom b (chunkCallOps (revChunk (Chunk.block s g cl)))) := by
  have hread : (A ++ (s :: segsPts g) ++ EXT).getD
      (A.length + (s :: segsPts g).length - 1) origin = blockLast s g := by
    rw [List.append_assoc]
    rw [show A.length + (s :: segsPts g).length - 1 =
      A.length + ((s :: segsPts g).length - 1) from by simp]
    rw [getD_append_right' A _ origin _]
    rw [getD_append_left' _ EXT origin _ (by simp)]
    exact getD_of_getLast? _ _ _ (cons_segsPts_getLast s g)
  cases cl with
  | true =>
    rw [show (chunkVerbs (Chunk.block s g true)).reverse =
      Verb.Close :: ((segsVerbs g).reverse ++ [Verb.Begin]) from by simp [chunkVerbs]]
    show revFold (A ++ (s :: segsPts g) ++ EXT) ((segsVerbs g).reverse ++ [Verb.Begin])
      (A.length + (s :: segsPts g).length - 0) true
      (b.move_to ((A ++ (s :: segsPts g) ++ EXT).getD
        (A.length + (s :: segsPts g).length - 1) origin)) = _
    rw [hread]
    rw [show A.length + (s :: segsPts g).length - 0 =
      A.length + 1 + (segsPts g).length from by simp [List.length_cons]; omega]
    rw [revFold_append, revFold_segs g A EXT s true (b.move_to (blockLast s g))]
    show revFold (A ++ (s :: segsPts g) ++ EXT) [Verb.Begin] (A.length + 1) true
      (applyOpsFrom (b.move_to (blockLast s g)) ((revSegs s g).map segOp)) = _
    show (A.length + 1 - 1, false,
      (applyOpsFrom (b.move_to (blockLast s g)) ((revSegs s g).map segOp)).close) = _
    rw [show A.length + 1 - 1 = A.length from by omega]
    rw [show chunkCallOps (revChunk (Chunk.block s g true)) =
      BuilderOp.move_to (blockLast s g) ::
        ((revSegs s g).map segOp ++ [BuilderOp.close]) from rfl]
    show _ = (A.length, false,
      applyOpsFrom (b.move_to (blockLast s g)) ((revSegs s g).map segOp ++ [BuilderOp.close]))
    rw [applyOpsFrom_append]
    rfl
  | false =>
    rw [show (chunkVerbs (Chunk.block s g false)).reverse =
      Verb.End :: ((segsVerbs g).reverse ++ [Verb.Begin]) from by simp [chunkVerbs]]
    show revFold (A ++ (s :: segsPts g) ++ EXT) ((segsVerbs g).reverse ++ [Verb.Begin])
      (A.length + (s :: segsPts g).length - 0) false
      (b.move_to ((A ++ (s :: segsPts g) ++ EXT).getD
        (A.length + (s :: segsPts g).length - 1) origin)) = _
    rw [hread]
    rw [show A.length + (s :: segsPts g).length - 0 =
      A.length + 1 + (segsPts g).length from by simp [List.length_cons]; omega]
    rw [revFold_append, revFold_segs g A EXT s false (b.move_to (blockLast s g))]
    show revFold (A ++ (s :: segsPts g) ++ EXT) [Verb.Begin] (A.length + 1) false
      (applyOpsFrom (b.move_to (blockLast s g)) ((revSegs s g).map segOp)) = _
    show (A.length + 1 - 1, false,
      applyOpsFrom (b.move_to (blockLast s g)) ((revSegs s g).map segOp)) = _
    rw [show A.length + 1 - 1 = A.length from by omega]
    rfl

theorem revFold_chunks (cs : List Chunk) :
    (∀ c ∈ cs, ∃ s g cl, c = Chunk.block s g cl) → ∀ (EXT : List Point) (b : Builder),
    revFold (chunksPts cs ++ EXT) ((chunksVerbs cs).reverse) (chunksPts cs).length false b
    = (0, false, applyOpsFrom b (csOps (cs.reverse.map revChunk))) := by
  induction cs using List.reverseRecOn with
  | nil => intro _ EXT b; rfl
  | append_singleton cs' blk ih =>
    intro hall EXT b
    obtain ⟨s, g, cl, rfl⟩ := hall blk (by simp)
    rw [show chunksPts (cs' ++ [Chunk.block s g cl]) =
      chunksPts cs' ++ (s :: segsPts g) from by
        rw [chunksPts_append]; simp [chunkPts, chunksPts]]
    rw [show (chunksVerbs (cs' ++ [Chunk.block s g cl])).reverse =
      (chunkVerbs (Chunk.block s g cl)).reverse ++ (chunksVerbs cs').reverse from by
        rw [chunksVerbs_append]; simp [chunkVerbs, chunksVerbs]]
    rw [List.length_append]
    rw [revFold_append]
    rw [show chunksPts cs' ++ (s :: segsPts g) ++ EXT =
      (chunksPts cs') ++ (s :: segsPts g) ++ EXT from by simp]
    rw [revFold_block s g cl (chunksPts cs') EXT b]
    have hall' : ∀ c ∈ cs', ∃ s2 g2 cl2, c = Chunk.block s2 g2 cl2 := by
      intro c hc
      exact hall c (by simp [hc])
    have hpts2 : chunksPts cs' ++ (s :: segsPts g) ++ EXT =
      chunksPts cs' ++ ((s :: segsPts g) ++ EXT) := by simp
    rw [hpts2, ih hall' ((s :: segsPts g) ++ EXT)
      (applyOpsFrom b (chunkCallOps (revChunk (Chunk.block s g cl))))]
    rw [show (cs' ++ [Chunk.block s g cl]).reverse.map revChunk =
      revChunk (Chunk.block s g cl) :: cs'.reverse.map revChunk from by simp]
    rw [show csOps (revChunk (Chunk.block s g cl) :: cs'.reverse.map revChunk) =
      chunkCallOps (revChunk (Chunk.block s g cl)) ++ csOps (cs'.reverse.map revChunk)
      from rfl]
    rw [applyOpsFrom_append]

theorem reverse_path_calls (cs : List Chunk)
    (hall : ∀ c ∈ cs, ∃ s g cl, c = Chunk.block s g cl) (b : Builder) :
    reverse_path (Path.mk (chunksPts cs) (chunksVerbs cs)) b =
      applyOpsFrom b (csOps (cs.reverse.map revChunk)) := by
  unfold reverse_path
  have h := revFold_chunks cs hall [] b
  rw [List.append_nil] at h
  show (revFold (chunksPts cs) ((chunksVerbs cs).reverse) (chunksPts cs).length false b).2.2 = _
  rw [h]

theorem revSegs_append (xs : List Seg) : ∀ (p : Point) (ys : List Seg),
    revSegs p (xs ++ ys) = revSegs (blockLast p xs) ys ++ revSegs p xs := by
  induction xs with
  | nil =>
    intro p ys
    show revSegs p ys = revSegs (blockLast p []) ys ++ []
    rw [List.append_nil]
    rfl
  | cons a xs ih =>
    intro p ys
    show revSegs a.to (xs ++ ys) ++ [a.revWith p] = _
    rw [ih a.to ys]
    rw [show blockLast p (a :: xs) = blockLast a.to xs from blockLast_cons_to p a xs]
    show _ = revSegs (blockLast a.to xs) ys ++ (revSegs a.to xs ++ [a.revWith p])
    rw [List.append_assoc]

theorem blockLast_revSegs (p : Point) (g : List Seg) :
    blockLast (blockLast p g) (revSegs p g) = p := by
  cases g with
  | nil => rfl
  | cons a g2 =>
    show blockLast _ (revSegs a.to g2 ++ [a.revWith p]) = p
    rw [blockLast_concat, Seg.revWith_to]

theorem Seg.revWith_revWith (a : Seg) (p : Point) : (a.revWith p).revWith a.to = a := by
  cases a <;> rfl

theorem revSegs_invol (g : List Seg) : ∀ (p : Point),
    revSegs (blockLast p g) (revSegs p g) = g := by
  induction g with
  | nil => intro p; rfl
  | cons a xs ih =>
    intro p
    show revSegs (blockLast p (a :: xs)) (revSegs a.to xs ++ [a.revWith p]) = a :: xs
    rw [show blockLast p (a :: xs) = blockLast a.to xs from blockLast_cons_to p a xs]
    rw [revSegs_append (revSegs a.to xs) (blockLast a.to xs) [a.revWith p]]
    rw [blockLast_revSegs a.to xs]
    show revSegs a.to [a.revWith p] ++ revSegs (blockLast a.to xs) (revSegs a.to xs) = _
    rw [ih a.to]
    show revSegs (a.revWith p).to [] ++ [(a.revWith p).revWith a.to] ++ xs = _
    rw [Seg.revWith_revWith]
    rfl

theorem chunksOKFrom_of_blocks (cs : List Chunk)
    (h : ∀ c ∈ cs, ∃ s g cl, c = Chunk.block s g cl ∧
      (cl = true → snapOK (blockLast s g) s)) :
    ∀ (a : Point) (lp : Option Point), chunksOKFrom a lp cs := by
  induction cs with
  | nil => intro a lp; trivial
  | cons c cs ih =>
    intro a lp
    obtain ⟨s, g, cl, rfl, hsnap⟩ := h c (by simp)
    refine ⟨?_, ih (fun d hd => h d (by simp [hd])) _ _⟩
    cases cl with
    | true => exact hsnap rfl
    | false => trivial

/-- Reversing the encoding of block chunks builds the encoding of the
pointwise-reversed blocks in reversed order, provided each closed block is
already snapped (its last point equal to or at least the tolerance away
from its start). -/
theorem revBuild_encode (cs : List Chunk)
    (hall : ∀ c ∈ cs, ∃ s g cl, c = Chunk.block s g cl ∧
      (cl = true → snapOK (blockLast s g) s)) :
    revBuild (Path.mk (chunksPts cs) (chunksVerbs cs)) =
      Path.mk (chunksPts (cs.reverse.map revChunk))
        (chunksVerbs (cs.reverse.map revChunk)) := by
  unfold revBuild
  rw [reverse_path_calls cs (fun c hc => by
    obtain ⟨s, g, cl, rfl, _⟩ := hall c hc
    exact ⟨s, g, cl, rfl⟩) Builder.new]
  show buildOps (csOps (cs.reverse.map revChunk)) = _
  refine build_encode _ ?_ ?_
  · refine chunksOKFrom_of_blocks _ ?_ origin none
    intro m hm
    rw [List.mem_map] at hm
    obtain ⟨c, hc, rfl⟩ := hm
    rw [List.mem_reverse] at hc
    obtain ⟨s, g, cl, rfl, hsnap⟩ := hall c hc
    refine ⟨blockLast s g, revSegs s g, cl, rfl, ?_⟩
    intro hcl
    rw [blockLast_revSegs]
    exact snapOK_symm (hsnap hcl)
  · refine sane_of_all_blocks _ ?_
    intro m hm
    rw [List.mem_map] at hm
    obtain ⟨c, hc, rfl⟩ := hm
    rw [List.mem_reverse] at hc
    obtain ⟨s, g, cl, rfl, _⟩ := hall c hc
    exact ⟨blockLast s g, revSegs s g, cl, rfl⟩

theorem goodBlocks_rev (cs : List Chunk)
    (hall : ∀ c ∈ cs, ∃ s g cl, c = Chunk.block s g cl ∧
      (cl = true → snapOK (blockLast s g) s)) :
    ∀ m ∈ cs.reverse.map revChunk, ∃ s g cl, m = Chunk.block s g cl ∧
      (cl = true → snapOK (blockLast s g) s) := by
  intro m hm
  rw [List.mem_map] at hm
  obtain ⟨c, hc, rfl⟩ := hm
  rw [List.mem_reverse] at hc
  obtain ⟨s, g, cl, rfl, hsnap⟩ := hall c hc
  refine ⟨blockLast s g, revSegs s g, cl, rfl, ?_⟩
  intro hcl
  rw [blockLast_revSegs]
  exact snapOK_symm (hsnap hcl)

theorem map_id_of_mem {α : Type} (l : List α) (f : α → α) (h : ∀ a ∈ l, f a = a) :
    l.map f = l := by
  induction l with
  | nil => rfl
  | cons a l ih =>
    show f a :: l.map f = a :: l
    rw [h a (by simp), ih (fun x hx => h x (by simp [hx]))]

theorem revChunk_invol (c : Chunk) (h : ∃ s g cl, c = Chunk.block s g cl) :
    revChunk (revChunk c) = c := by
  obtain ⟨s, g, cl, rfl⟩ := h
  show Chunk.block (blockLast (blockLast s g) (revSegs s g))
    (revSegs (blockLast s g) (revSegs s g)) cl = _
  rw [blockLast_revSegs, revSegs_invol]

/-! The claim theorems. -/

/-- C1: the Identifier Iterator is claimed to stay in lock-step with the
Event Iterator so that looking its ids up in the points array returns the
event values.  The code violates this: on the path built from
move_to((0,0)); line_to((1,1)) the id iterator emits Line from index 1 to
index 2 while the event iterator emits Line from (0,0) to (1,1); index 1
holds (1,1), not (0,0), and index 2 is out of bounds of the 2-point array.
This theorem evaluates both iterators at that failing input. -/
theorem C1_id_iter_points_bug :
    (buildOps [BuilderOp.move_to ⟨0, 0⟩, BuilderOp.line_to ⟨1, 1⟩]).idEvents =
        [Ev.begin 0, Ev.line 1 2, Ev.end_ 2 0 false] ∧
    (buildOps [BuilderOp.move_to ⟨0, 0⟩, BuilderOp.line_to ⟨1, 1⟩]).events =
        [Ev.begin ⟨0, 0⟩, Ev.line ⟨0, 0⟩ ⟨1, 1⟩, Ev.end_ ⟨1, 1⟩ ⟨0, 0⟩ false] ∧
    (buildOps [BuilderOp.move_to ⟨0, 0⟩, BuilderOp.line_to ⟨1, 1⟩]).points.length = 2 ∧
    (buildOps [BuilderOp.move_to ⟨0, 0⟩, BuilderOp.line_to ⟨1, 1⟩]).points.getD 1 origin =
      ⟨1, 1⟩ ∧
    (⟨1, 1⟩ : Point) ≠ ⟨0, 0⟩ := by
  decide

/-- C3, counterexample: calling close() on a fresh builder yields the path
with points [] and tags [Close]; its single maximal run starts with Close,
not Begin, refuting the claimed invariant as stated. -/
theorem C3_counterexample :
    ¬ (numPoints (buildOps [BuilderOp.close]).verbs =
          (buildOps [BuilderOp.close]).points.length ∧
        runsBeginFirst true (buildOps [BuilderOp.close]).verbs = true ∧
        beginsPreceded (buildOps [BuilderOp.close]).verbs = true) := by
  decide

/-- C3, amended: for every sequence of builder calls the built path exactly
consumes its points (no under-run, exact exhaustion), every maximal
terminator-delimited run either starts with Begin or is a single bare Close
(the latter produced by close() with no open sub-path), and every Begin with
a predecessor is directly preceded by Close or End. -/
theorem C3_amended_invariants (ops : List BuilderOp) :
    numPoints (buildOps ops).verbs = (buildOps ops).points.length ∧
    runsOK true (buildOps ops).verbs = true ∧
    beginsPreceded (buildOps ops).verbs = true := by
  obtain ⟨cs, hP, _, _⟩ := buildOps_chunks ops
  rw [hP]
  exact ⟨numPoints_chunksVerbs cs, runsOK_chunksVerbs cs,
    beginsPreceded_of_runsOK _ true (runsOK_chunksVerbs cs)⟩

/-- C6, counterexample: after move_to((1,2)), build_and_reset returns the
path with tags [Begin] although build() would return [Begin, End], and the
residual builder still has need_moveto = false and last_cmd = Begin, unlike
a fresh builder. -/
theorem C6_counterexample :
    ((applyOps [BuilderOp.move_to ⟨1, 2⟩]).build_and_reset).1.verbs = [Verb.Begin] ∧
    (applyOps [BuilderOp.move_to ⟨1, 2⟩]).build.verbs = [Verb.Begin, Verb.End] ∧
    ((applyOps [BuilderOp.move_to ⟨1, 2⟩]).build_and_reset).2.need_moveto = false ∧
    Builder.new.need_moveto = true ∧
    ((applyOps [BuilderOp.move_to ⟨1, 2⟩]).build_and_reset).2.last_cmd = Verb.Begin ∧
    Builder.new.last_cmd = Verb.End := by
  decide

/-- C6, amended: build_and_reset freezes the arrays exactly as they are (no
synthetic End; it agrees with build() precisely when no End is pending) and
resets only the arrays, current_position and first_position, leaving
need_moveto, last_cmd, first_vertex and first_verb untouched. -/
theorem C6_amended_build_and_reset (b : Builder) :
    (b.build_and_reset).1 = { points := b.points, verbs := b.verbs } ∧
    ((b.build_and_reset).1 = b.build ↔ 3 < b.last_cmd.rank) ∧
    (b.build_and_reset).2.points = [] ∧
    (b.build_and_reset).2.verbs = [] ∧
    (b.build_and_reset).2.current_position = origin ∧
    (b.build_and_reset).2.first_position = origin ∧
    (b.build_and_reset).2.need_moveto = b.need_moveto ∧
    (b.build_and_reset).2.last_cmd = b.last_cmd ∧
    (b.build_and_reset).2.first_vertex = b.first_vertex ∧
    (b.build_and_reset).2.first_verb = b.first_verb := by
  refine ⟨rfl, ?_, rfl, rfl, rfl, rfl, rfl, rfl, rfl, rfl⟩
  constructor
  · intro h
    by_cases hr : 3 < b.last_cmd.rank
    · exact hr
    · exfalso
      rw [show (b.build_and_reset).1 = { points := b.points, verbs := b.verbs } from rfl]
        at h
      unfold Builder.build at h
      rw [end_if_needed_of_le b (by omega)] at h
      have hv : b.verbs = b.verbs ++ [Verb.End] := congrArg Path.verbs h
      have := congrArg List.length hv
      simp at this
  · intro hr
    show _ = b.build
    unfold Builder.build
    rw [end_if_needed_of_gt b hr]
    rfl

/-- C7: close() snaps the last stored point to first_position exactly when
their L1 distance is below the 1e-4 tolerance, appends a Close tag without
storing a point, sets current_position to first_position and need_moveto to
true, and leaves all other stored points and tags unchanged. -/
theorem C7_close_spec (b : Builder) :
    (b.close).verbs = b.verbs ++ [Verb.Close] ∧
    (b.close).current_position = b.first_position ∧
    (b.close).need_moveto = true ∧
    (b.close).points.length = b.points.length ∧
    (b.close).points.dropLast = b.points.dropLast ∧
    (b.close).points.getLast? = (b.points.getLast?).map
      (fun p => if snapDist p b.first_position < tol then b.first_position else p) := by
  refine ⟨rfl, rfl, rfl, ?_, ?_, ?_⟩
  · show (snapLast b.points b.first_position).length = _
    unfold snapLast
    cases hgl : b.points.getLast? with
    | none => rfl
    | some p =>
      have hne : b.points ≠ [] := by
        intro hc
        rw [hc] at hgl
        exact Option.noConfusion hgl
      show (if snapDist p b.first_position < tol
          then b.points.dropLast ++ [b.first_position] else b.points).length = _
      split
      · rw [List.length_append, List.length_dropLast]
        have := List.length_pos.mpr hne
        simp
        omega
      · rfl
  · show (snapLast b.points b.first_position).dropLast = _
    unfold snapLast
    cases hgl : b.points.getLast? with
    | none => rfl
    | some p =>
      show (if snapDist p b.first_position < tol
          then b.points.dropLast ++ [b.first_position] else b.points).dropLast = _
      split
      · rw [List.dropLast_concat]
      · rfl
  · show (snapLast b.points b.first_position).getLast? = _
    unfold snapLast
    cases hgl : b.points.getLast? with
    | none => exact hgl
    | some p =>
      show (if snapDist p b.first_position < tol
          then b.points.dropLast ++ [b.first_position] else b.points).getLast? = _
      split
      case isTrue h =>
        rw [getLast?_concat']
        show _ = some (if snapDist p b.first_position < tol then b.first_position else p)
        rw [if_pos h]
      case isFalse h =>
        rw [hgl]
        show _ = some (if snapDist p b.first_position < tol then b.first_position else p)
        rw [if_neg h]

/-- C8: reversing the path move_to((20,0)); quadratic_bezier_to((21,0),(21,1))
yields exactly the events Begin(21,1), Quadratic from (21,1) with control
(21,0) to (20,0), and a non-closing End, with nothing after. -/
theorem C8_reverse_quadratic_scenario :
    (revBuild (buildOps [BuilderOp.move_to ⟨20, 0⟩,
        BuilderOp.quadratic_bezier_to ⟨21, 0⟩ ⟨21, 1⟩])).events =
      [Ev.begin ⟨21, 1⟩, Ev.quadratic ⟨21, 1⟩ ⟨21, 0⟩ ⟨20, 0⟩,
       Ev.end_ ⟨20, 0⟩ ⟨21, 1⟩ false] := by
  decide

/-- C9: for every path whose tag arities never ask for more points than the
array holds (true of all built paths), the Event Iterator and the Identifier
Iterator produce kind-identical event sequences, position for position. -/
theorem C9_kind_lockstep (P : Path) (h : numPoints P.verbs ≤ P.points.length) :
    P.events.map Ev.kind = P.idEvents.map Ev.kind :=
  evAux_idAux_kinds P.verbs P.points origin origin 0 0 h

theorem C9_kind_lockstep_witness :
    (buildOps [BuilderOp.move_to ⟨0, 0⟩, BuilderOp.line_to ⟨1, 0⟩,
        BuilderOp.quadratic_bezier_to ⟨2, 0⟩ ⟨2, 1⟩,
        BuilderOp.cubic_bezier_to ⟨3, 0⟩ ⟨3, 1⟩ ⟨3, 2⟩, BuilderOp.close]).events.map Ev.kind =
      (buildOps [BuilderOp.move_to ⟨0, 0⟩, BuilderOp.line_to ⟨1, 0⟩,
        BuilderOp.quadratic_bezier_to ⟨2, 0⟩ ⟨2, 1⟩,
        BuilderOp.cubic_bezier_to ⟨3, 0⟩ ⟨3, 1⟩ ⟨3, 2⟩,
        BuilderOp.close]).idEvents.map Ev.kind :=
  C9_kind_lockstep _ (by decide)

/-- C10: whenever the arities of the tag stream sum to the length of the
points array and every maximal run starts with Begin, every point access of
reverse_path is in bounds; and the precondition is necessary, since
close() on a fresh builder produces the path with empty points and tags
[Close], on which the points[p-1] read under-runs the empty array. -/
theorem C10_reverse_access :
    (∀ (pts : List Point) (vs : List Verb),
        numPoints vs = pts.length → runsBeginFirst true vs = true →
        reverseAccessOk pts vs = true) ∧
    buildOps [BuilderOp.close] = { points := [], verbs := [Verb.Close] } ∧
    reverseAccessOk (buildOps [BuilderOp.close]).points
      (buildOps [BuilderOp.close]).verbs = false := by
  refine ⟨reverseAccessOk_of_wf, by decide, by decide⟩

theorem C10_reverse_access_witness :
    reverseAccessOk [origin] [Verb.Begin, Verb.End] = true :=
  C10_reverse_access.1 [origin] [Verb.Begin, Verb.End] (by decide) (by decide)

/-- C5: for a path made of Begin-started sub-paths, each either closed or
carrying at least one genuine segment, and each closed one already snapped
(its last point equal to the sub-path start or at least the close tolerance
away, which is the state every built path is in and the only situation in
which the close snap cannot perturb points), reversing the path into a
fresh builder, building, reversing again and building yields a path that
iterates to exactly the same event sequence. -/
theorem C5_reverse_involution (cs : List Chunk)
    (h : ∀ c ∈ cs, ∃ s g cl, c = Chunk.block s g cl ∧ (cl = true ∨ g ≠ []) ∧
        (cl = true → snapOK (blockLast s g) s)) :
    (revBuild (revBuild (Path.mk (chunksPts cs) (chunksVerbs cs)))).events =
      (Path.mk (chunksPts cs) (chunksVerbs cs)).events := by
  have h1 : ∀ c ∈ cs, ∃ s g cl, c = Chunk.block s g cl ∧
      (cl = true → snapOK (blockLast s g) s) := by
    intro c hc
    obtain ⟨s, g, cl, rfl, _, hsnap⟩ := h c hc
    exact ⟨s, g, cl, rfl, hsnap⟩
  rw [revBuild_encode cs h1]
  rw [revBuild_encode (cs.reverse.map revChunk) (goodBlocks_rev cs h1)]
  have halg : (cs.reverse.map revChunk).reverse.map revChunk = cs := by
    rw [show (cs.reverse.map revChunk).reverse = cs.reverse.reverse.map revChunk from
      (List.reverse_map revChunk cs.reverse)]
    rw [List.reverse_reverse, List.map_map]
    refine map_id_of_mem cs _ ?_
    intro c hc
    obtain ⟨s, g, cl, rfl, _, _⟩ := h c hc
    exact revChunk_invol _ ⟨s, g, cl, rfl⟩
  rw [halg]

theorem C5_reverse_involution_witness :
    (revBuild (revBuild (Path.mk
        (chunksPts [Chunk.block ⟨20, 0⟩ [Seg.quad ⟨21, 0⟩ ⟨21, 1⟩] false])
        (chunksVerbs [Chunk.block ⟨20, 0⟩ [Seg.quad ⟨21, 0⟩ ⟨21, 1⟩] false])))).events =
      (Path.mk (chunksPts [Chunk.block ⟨20, 0⟩ [Seg.quad ⟨21, 0⟩ ⟨21, 1⟩] false])
        (chunksVerbs [Chunk.block ⟨20, 0⟩ [Seg.quad ⟨21, 0⟩ ⟨21, 1⟩] false])).events :=
  C5_reverse_involution _ (by
    intro c hc
    rw [List.mem_singleton] at hc
    subst hc
    exact ⟨⟨20, 0⟩, [Seg.quad ⟨21, 0⟩ ⟨21, 1⟩], false, rfl,
      Or.inr (by simp), fun hcl => Bool.noConfusion hcl⟩)

/-- C4, counterexample: with A built from move_to((1,2)) and B built from a
bare close(), iterating merge(A, B) does not produce the events of A
followed by the events of B: the trailing Close of B replays against the
iterator state left by A, so its End event carries (1,2) instead of the
origin it reports when B is iterated alone. -/
theorem C4_counterexample :
    ((buildOps [BuilderOp.move_to ⟨1, 2⟩]).merge (buildOps [BuilderOp.close])).events ≠
      (buildOps [BuilderOp.move_to ⟨1, 2⟩]).events ++
        (buildOps [BuilderOp.close]).events := by
  decide

/-- C4, amended: if the tag arities of A exactly account for its points
array (true of every built path) and the tag stream of B is empty or starts
with Begin (true of every built path except those beginning with a bare
close), then iterating merge(A, B) yields exactly the events of A followed
by the events of B.  Non-mutation of the operands is inherent in the
functional model: merge builds a new path from the unchanged arrays. -/
theorem C4_merge_events_amended (A B : Path)
    (hA : numPoints A.verbs = A.points.length)
    (hB : B.verbs = [] ∨ ∃ vs, B.verbs = Verb.Begin :: vs) :
    (A.merge B).events = A.events ++ B.events := by
  show evAux (A.verbs ++ B.verbs) (A.points ++ B.points) origin origin = _
  obtain ⟨c2, f2, e⟩ := evAux_append A.verbs A.points B.verbs B.points origin origin hA
  rw [e]
  unfold Path.events
  rw [evAux_begin_state B.verbs B.points c2 f2 origin origin hB]

/-- C2: for every sequence of builder calls, replaying the events of the
built path into a fresh builder (Begin as move_to, Line as line_to,
Quadratic and Cubic as the curve calls, closing End as close, non-closing
End as a no-op) and building again returns a path with identical points and
tags arrays. -/
theorem C2_roundtrip (ops : List BuilderOp) :
    replayBuild ((buildOps ops).events) = buildOps ops := by
  obtain ⟨cs, hP, hok, hsane⟩ := buildOps_chunks ops
  rw [hP]
  have hev : (Path.mk (chunksPts cs) (chunksVerbs cs)).events = chunksEvs origin cs := by
    show evAux (chunksVerbs cs) (chunksPts cs) origin origin = _
    exact events_encode cs origin
  rw [hev]
  unfold replayBuild
  rw [replay_chunks]
  show buildOps (csOps cs) = _
  exact build_encode cs hok hsane

theorem C2_roundtrip_witness :
    replayBuild ((buildOps [BuilderOp.move_to ⟨0, 0⟩, BuilderOp.line_to ⟨1, 0⟩,
        BuilderOp.close, BuilderOp.line_to ⟨2, 0⟩]).events) =
      buildOps [BuilderOp.move_to ⟨0, 0⟩, BuilderOp.line_to ⟨1, 0⟩,
        BuilderOp.close, BuilderOp.line_to ⟨2, 0⟩] :=
  C2_roundtrip [BuilderOp.move_to ⟨0, 0⟩, BuilderOp.line_to ⟨1, 0⟩,
    BuilderOp.close, BuilderOp.line_to ⟨2, 0⟩]

theorem C3_amended_invariants_witness :
    numPoints (buildOps [BuilderOp.close, BuilderOp.line_to ⟨1, 0⟩]).verbs =
        (buildOps [BuilderOp.close, BuilderOp.line_to ⟨1, 0⟩]).points.length ∧
      runsOK true (buildOps [BuilderOp.close, BuilderOp.line_to ⟨1, 0⟩]).verbs = true ∧
      beginsPreceded (buildOps [BuilderOp.close, BuilderOp.line_to ⟨1, 0⟩]).verbs = true :=
  C3_amended_invariants [BuilderOp.close, BuilderOp.line_to ⟨1, 0⟩]

theorem C6_amended_build_and_reset_witness :
    ((applyOps [BuilderOp.move_to ⟨1, 2⟩, BuilderOp.line_to ⟨3, 4⟩]).build_and_reset).1 =
        { points := (applyOps [BuilderOp.move_to ⟨1, 2⟩, BuilderOp.line_to ⟨3, 4⟩]).points,
          verbs := (applyOps [BuilderOp.move_to ⟨1, 2⟩, BuilderOp.line_to ⟨3, 4⟩]).verbs } :=
  (C6_amended_build_and_reset (applyOps [BuilderOp.move_to ⟨1, 2⟩,
    BuilderOp.line_to ⟨3, 4⟩])).1

theorem C7_close_spec_witness :
    ((applyOps [BuilderOp.move_to ⟨1, 2⟩, BuilderOp.line_to ⟨3, 4⟩]).close).verbs =
      (applyOps [BuilderOp.move_to ⟨1, 2⟩, BuilderOp.line_to ⟨3, 4⟩]).verbs ++
        [Verb.Close] :=
  (C7_close_spec (applyOps [BuilderOp.move_to ⟨1, 2⟩, BuilderOp.line_to ⟨3, 4⟩])).1

theorem C4_merge_events_witness :
    ((buildOps [BuilderOp.move_to ⟨0, 0⟩, BuilderOp.line_to ⟨1, 0⟩]).merge
        (buildOps [BuilderOp.move_to ⟨5, 5⟩, BuilderOp.close])).events =
      (buildOps [BuilderOp.move_to ⟨0, 0⟩, BuilderOp.line_to ⟨1, 0⟩]).events ++
        (buildOps [BuilderOp.move_to ⟨5, 5⟩, BuilderOp.close]).events :=
  C4_merge_events_amended _ _ (by decide) (Or.inr ⟨[Verb.Close], by decide⟩)

end Lyon
